import Mathlib

/-!
# NFC Barcode frame decoder (`examples/nfc-barcode.c`)

Shallow embedding of `bits2barcode`, `validate_crc` and `decode_barcode`.

Conventions of the embedding.

* A C byte buffer is a `List Nat`; its length is the size of the object the
  pointer addresses.  An access outside the list is the fault `outOfBounds`.
* A store into a `uint8_t` object keeps the value modulo `256`.
* `size_t` arithmetic is carried out on `Nat`; the subtractions
  `(szBarcode / 8) - 2` and `(szBarcode / 8) - 1`, the only `size_t` expressions
  that can wrap before an access leaves the buffer, wrap explicitly (`szSub`,
  for a 64-bit `size_t`).  `bits2barcode` returns `off` converted to a 32-bit
  `int` (`toInt`): values below `2 ^ 31` are kept, larger ones wrap.
* `uint8_t` loop counters that are compared against a `size_t` bound wrap
  modulo `256`; such loops take a step budget (`fuel`) and running out of it is
  the fault `outOfFuel`.
* Text written by `printf` is collected as a list of bytes.
-/

namespace NfcBarcode

/-- Ways in which a run of the embedded code fails to produce a result. -/
inductive Fault where
  | outOfBounds
  | outOfFuel
  deriving DecidableEq, Repr

/-- Load `buf[i]`. -/
def rd (buf : List Nat) (i : Nat) : Except Fault Nat :=
  match buf[i]? with
  | some b => .ok b
  | none => .error .outOfBounds

/-- Store `buf[i] = v` into a `uint8_t` cell. -/
def wr (buf : List Nat) (i v : Nat) : Except Fault (List Nat) :=
  if i < buf.length then .ok (buf.set i (v % 256)) else .error .outOfBounds

/-- Compound assignment `buf[i] |= v` on a `uint8_t` cell. -/
def orAt (buf : List Nat) (i v : Nat) : Except Fault (List Nat) :=
  match rd buf i with
  | .ok old => wr buf i (old ||| v)
  | .error e => .error e

/-- Loop `for (i = start; i < start + n; i++) body`, the counter not wrapping. -/
def forLoop {σ : Type} (body : Nat → σ → Except Fault σ) : Nat → Nat → σ → Except Fault σ
  | 0, _, s => .ok s
  | n + 1, i, s =>
    match body i s with
    | .ok s1 => forLoop body n (i + 1) s1
    | .error e => .error e

/-- Loop `for (i = 0; i < szBarcode; i++) pbtBarcode[i] = 0;` of `bits2barcode`,
entered with the current value of the `uint8_t` counter `i`. -/
def zeroFill (szBarcode : Nat) : Nat → Nat → List Nat → Except Fault (List Nat)
  | 0, _, _ => .error .outOfFuel
  | fuel + 1, i, buf =>
    if i < szBarcode then
      match wr buf i 0 with
      | .ok buf1 => zeroFill szBarcode fuel ((i + 1) % 256) buf1
      | .error e => .error e
    else .ok buf

/-- Statement `pbtBarcode[off / 8] |= v << (7 - (off % 8)); off++;`. -/
def putShifted (v : Nat) (st : List Nat × Nat) : Except Fault (List Nat × Nat) :=
  match orAt st.1 (st.2 / 8) (v <<< (7 - st.2 % 8)) with
  | .ok buf1 => .ok (buf1, st.2 + 1)
  | .error e => .error e

/-- Body of the two bit loops:
`pbtBarcode[off / 8] |= ((pbtData[szPos] >> i) & 1) << (7 - (off % 8)); off++;`. -/
def bitBody (pbtData : List Nat) (szPos i : Nat) (st : List Nat × Nat) :
    Except Fault (List Nat × Nat) :=
  match rd pbtData szPos with
  | .ok d => putShifted ((d >>> i) &&& 1) st
  | .error e => .error e

/-- Body of the loop over `szPos`: eight data bits, then the parity byte. -/
def groupBody (pbtData pbtDataPar : List Nat) (szPos : Nat) (st : List Nat × Nat) :
    Except Fault (List Nat × Nat) :=
  match forLoop (bitBody pbtData szPos) 8 0 st with
  | .ok st1 =>
    match rd pbtDataPar szPos with
    | .ok p => putShifted p st1
    | .error e => .error e
  | .error e => .error e

/-- Statements of `bits2barcode` before its `return`: the final buffer and the
final value of the `size_t` cursor `off`. -/
def bits2barcodeBody (fuel : Nat) (pbtData : List Nat) (szBits : Nat) (pbtDataPar : List Nat)
    (pbtBarcode : List Nat) (szBarcode : Nat) : Except Fault (List Nat × Nat) :=
  let szBytes := szBits / 8
  match zeroFill szBarcode fuel 0 pbtBarcode with
  | .error e => .error e
  | .ok buf0 =>
    match putShifted 1 (buf0, 0) with
    | .error e => .error e
    | .ok st1 =>
      match forLoop (groupBody pbtData pbtDataPar) szBytes 0 st1 with
      | .error e => .error e
      | .ok st2 =>
        let uRemainder := szBits % 8
        forLoop (bitBody pbtData szBytes) uRemainder 0 st2

/-- Conversion of a `size_t` value to `int`, 32 bits wide in two's complement,
as `return off;` performs it in a function of return type `int`: the value is
kept below `2 ^ 31` and reduced modulo `2 ^ 32` into the range of `int` above. -/
def toInt (off : Nat) : Int :=
  if off % 2 ^ 32 < 2 ^ 31 then ((off % 2 ^ 32 : Nat) : Int)
  else ((off % 2 ^ 32 : Nat) : Int) - 2 ^ 32

/-- Function `bits2barcode`; returns the final buffer and the `int` that
`return off;` yields. -/
def bits2barcode (fuel : Nat) (pbtData : List Nat) (szBits : Nat) (pbtDataPar : List Nat)
    (pbtBarcode : List Nat) (szBarcode : Nat) : Except Fault (List Nat × Int) :=
  match bits2barcodeBody fuel pbtData szBits pbtDataPar pbtBarcode szBarcode with
  | .error e => .error e
  | .ok st => .ok (st.1, toInt st.2)

/-- Bit `7 - p % 8` of byte `p / 8` of a buffer. -/
def outbit (buf : List Nat) (p : Nat) : Bool :=
  (buf.getD (p / 8) 0).testBit (7 - p % 8)

/-- Expected bit at position `p` of the reframed stream: the start bit, then for
each complete group eight data bits (least significant first) and the parity
bit, then the bits of the partial group. -/
def frameBit (data par : List Nat) (szBits p : Nat) : Bool :=
  if p = 0 then true
  else if (p - 1) / 9 < szBits / 8 then
    if (p - 1) % 9 < 8 then (data.getD ((p - 1) / 9) 0).testBit ((p - 1) % 9)
    else decide (par.getD ((p - 1) / 9) 0 = 1)
  else if (p - 1) / 9 = szBits / 8 ∧ (p - 1) % 9 < szBits % 8 then
    (data.getD (szBits / 8) 0).testBit ((p - 1) % 9)
  else false

/-- Inverse of the reframing, data side: the byte whose bit `k` is the output
bit `1 + 9 * g + k`, for `k = 0..7`. -/
def extractByte (buf : List Nat) (g : Nat) : Nat :=
  ((List.range 8).map (fun k => (outbit buf (1 + 9 * g + k)).toNat * 2 ^ k)).sum

/-- Inverse of the reframing, parity side: the ninth bit of group `g`. -/
def extractParity (buf : List Nat) (g : Nat) : Nat :=
  (outbit buf (1 + 9 * g + 8)).toNat

/-- The data bytes of the first `q` groups of a reframed buffer. -/
def extractData (buf : List Nat) (q : Nat) : List Nat :=
  (List.range q).map (extractByte buf)

/-- The parity bits of the first `q` groups of a reframed buffer. -/
def extractPar (buf : List Nat) (q : Nat) : List Nat :=
  (List.range q).map (extractParity buf)

/-! ## `validate_crc` and `decode_barcode` -/

/-- State of `validate_crc` and `decode_barcode`: the buffer `pbtBarcode`, the
bytes written to standard output so far, and the offsets of `pbtBarcode` loaded
so far, in order. -/
structure Io where
  buf : List Nat
  out : List Nat
  reads : List Nat
  deriving DecidableEq, Repr

/-- Load `pbtBarcode[i]`, recorded in the read log. -/
def Io.load (s : Io) (i : Nat) : Except Fault (Nat × Io) :=
  match s.buf[i]? with
  | some b => .ok (b, { s with reads := s.reads ++ [i] })
  | none => .error .outOfBounds

/-- Store `pbtBarcode[i] = v`. -/
def Io.store (s : Io) (i v : Nat) : Except Fault Io :=
  if i < s.buf.length then .ok { s with buf := s.buf.set i (v % 256) }
  else .error .outOfBounds

/-- Append text to standard output. -/
def Io.print (s : Io) (text : List Nat) : Io :=
  { s with out := s.out ++ text }

/-- Bytes of an ASCII string literal. -/
def ascii (t : String) : List Nat :=
  t.toList.map Char.toNat

/-- One hexadecimal digit, upper case for `%X` and lower case for `%x`. -/
def hexDigit (upper : Bool) (d : Nat) : Nat :=
  if d < 10 then 48 + d else if upper then 55 + d else 87 + d

/-- Conversions `%02X` (`upper`) and `%02x` of a value below 256. -/
def fmtHex (upper : Bool) (b : Nat) : List Nat :=
  [hexDigit upper (b / 16), hexDigit upper (b % 16)]

/-- Subtraction of two `size_t` values, 64 bits wide. -/
def szSub (a b : Nat) : Nat :=
  (a + 2 ^ 64 - b) % 2 ^ 64

/-- Modelled from the spec: `iso14443a_crc` is declared in `nfc/nfc.h` and
defined in the library, not in the example; this is the update of the running
value by one byte in the "CRC-16 as specified for type-A contactless framing"
(ISO/IEC 14443-3 CRC_A, reflected polynomial `0x8408`). -/
def crcStep (wCrc bt : Nat) : Nat :=
  let bt1 := (bt ^^^ (wCrc &&& 0xFF)) % 256
  let bt2 := (bt1 ^^^ (bt1 <<< 4)) % 256
  ((wCrc >>> 8) ^^^ (bt2 <<< 8) ^^^ (bt2 <<< 3) ^^^ (bt2 >>> 4)) % 2 ^ 32

/-- Modelled from the spec: the type-A CRC of a byte sequence, "initialized"
with `0x6363` and "applied over all bytes" in order. -/
def crcA (bytes : List Nat) : Nat :=
  bytes.foldl crcStep 0x6363

/-- Modelled from the spec: the byte loop of `iso14443a_crc`, loading `n` bytes
of the buffer from offset `i` on. -/
def crcLoop : Nat → Nat → Nat → Io → Except Fault (Nat × Io)
  | 0, _, w, s => .ok (w, s)
  | n + 1, i, w, s =>
    match s.load i with
    | .ok (b, s1) => crcLoop n (i + 1) (crcStep w b) s1
    | .error e => .error e

/-- Modelled from the spec: `iso14443a_crc(pbtData, szLen, pbtCrc)`, which is not
in the example's source.  It computes the type-A CRC of the first `szLen` bytes
and stores the low byte of the value in `pbtCrc[0]` and the high byte in
`pbtCrc[1]`; the result is the pair `(pbtCrc[0], pbtCrc[1])`. -/
def iso14443a_crc (s : Io) (szLen : Nat) : Except Fault ((Nat × Nat) × Io) :=
  match crcLoop szLen 0 0x6363 s with
  | .ok (w, s1) => .ok ((w &&& 0xFF, (w >>> 8) &&& 0xFF), s1)
  | .error e => .error e

/-- Function `validate_crc`; `verbose` is the global flag of that name. -/
def validate_crc (verbose : Bool) (s : Io) (szBarcode : Nat) : Except Fault (Bool × Io) :=
  if szBarcode % 128 ≠ 0 then
    .ok (false, s.print (ascii "Warning, NFC Barcode seems incomplete, skipping CRC\n"))
  else
    match iso14443a_crc s (szSub (szBarcode / 8) 2) with
    | .error e => .error e
    | .ok (pbtCrc, s1) =>
      let s2 :=
        if verbose then
          s1.print (ascii "Computed CRC: " ++ fmtHex true pbtCrc.2 ++ ascii " "
            ++ fmtHex true pbtCrc.1 ++ ascii "\n")
        else s1
      match s2.load (szSub (szBarcode / 8) 2) with
      | .error e => .error e
      | .ok (b1, s3) =>
        if pbtCrc.2 = b1 then
          match s3.load (szSub (szBarcode / 8) 1) with
          | .error e => .error e
          | .ok (b2, s4) => .ok (decide (pbtCrc.1 = b2), s4)
        else .ok (false, s3)

/-- The two `if (verbose)` blocks at the head of `decode_barcode`. -/
def decodeVerbose (s : Io) : Except Fault Io :=
  match s.load 0 with
  | .error e => .error e
  | .ok (m, s1) =>
    let s2 := s1.print (ascii "Manufacturer ID field: " ++ fmtHex true m ++ ascii "\n")
    match s2.load 0 with
    | .error e => .error e
    | .ok (m2, s3) =>
      let s4 := s3.print
        (if m2 = 0xb7 then ascii "Manufacturer: Thinfilm\n" else ascii "Manufacturer: unknown\n")
      match s4.load 1 with
      | .error e => .error e
      | .ok (f, s5) => .ok (s5.print (ascii "Data Format Field: " ++ fmtHex true f ++ ascii "\n"))

/-- Text printed by the inner `switch (pbtBarcode[1])` of the URI case. -/
def uriPrefix (f : Nat) : List Nat :=
  if f = 1 then ascii "http://www."
  else if f = 2 then ascii "https://www."
  else if f = 3 then ascii "http://"
  else if f = 4 then ascii "https://"
  else []

/-- Loop `for (uint8_t i = 2; i < 15; i++)` of the URI case, with its `break`;
the first argument counts the iterations left. -/
def uriScan : Nat → Nat → Io → Except Fault Io
  | 0, _, s => .ok s
  | n + 1, i, s =>
    match s.load i with
    | .error e => .error e
    | .ok (b, s1) =>
      if b = 0xfe ∨ i = 14 then
        match s1.store i 10 with
        | .error e => .error e
        | .ok s2 => s2.store (i + 1) 0
      else uriScan n (i + 1) s1

/-- Conversion `%s` of `printf` applied to `pbtBarcode + i`: bytes are loaded
and printed up to the first zero byte; the first argument bounds the number of
loads and is never exhausted before a load leaves the buffer. -/
def printStr : Nat → Nat → Io → Except Fault Io
  | 0, _, _ => .error .outOfBounds
  | n + 1, i, s =>
    match s.load i with
    | .error e => .error e
    | .ok (b, s1) => if b = 0 then .ok s1 else printStr n (i + 1) (s1.print [b])

/-- Body of the loop of the EPC case: `printf("%02x", pbtBarcode[i + 2])`. -/
def epcBody (i : Nat) (s : Io) : Except Fault Io :=
  match s.load (i + 2) with
  | .error e => .error e
  | .ok (b, s1) => .ok (s1.print (fmtHex false b))

/-- Loop `for (uint8_t i = 2; i < (szBarcode / 8) - 2; i++) printf("%02x", pbtBarcode[i])`
of the default case, entered with the current value of the `uint8_t` counter. -/
def hexDump (bound : Nat) : Nat → Nat → Io → Except Fault Io
  | 0, _, _ => .error .outOfFuel
  | fuel + 1, i, s =>
    if i < bound then
      match s.load i with
      | .error e => .error e
      | .ok (b, s1) => hexDump bound fuel ((i + 1) % 256) (s1.print (fmtHex false b))
    else .ok s

/-- Function `decode_barcode`; `verbose` is the global flag of that name. -/
def decode_barcode (verbose : Bool) (fuel : Nat) (s : Io) (szBarcode : Nat) :
    Except Fault (Bool × Io) :=
  if szBarcode % 128 ≠ 0 then
    .ok (false, s.print (ascii "Warning, NFC Barcode seems incomplete, skipping decoding\n"))
  else
    match (if verbose then decodeVerbose s else .ok s) with
    | .error e => .error e
    | .ok s1 =>
      match s1.load 1 with
      | .error e => .error e
      | .ok (fmt, s2) =>
        if fmt = 0 then
          .ok (false, s2.print
            (ascii "Data Format Field: Reserved for allocation by tag manufacturer\n"))
        else if fmt = 1 ∨ fmt = 2 ∨ fmt = 3 ∨ fmt = 4 then
          match s2.load 1 with
          | .error e => .error e
          | .ok (fmt2, s3) =>
            match uriScan 13 2 (s3.print (uriPrefix fmt2)) with
            | .error e => .error e
            | .ok s4 =>
              match printStr (s4.buf.length + 1) 2 s4 with
              | .error e => .error e
              | .ok s5 => .ok (true, s5)
        else if fmt = 5 then
          match forLoop epcBody 12 0 (s2.print (ascii "EPC: ")) with
          | .error e => .error e
          | .ok s3 => .ok (true, s3.print (ascii "\n"))
        else
          match s2.load 1 with
          | .error e => .error e
          | .ok (fmt2, s3) =>
            let s4 := s3.print
              (ascii "Data Format Field: unknown (" ++ fmtHex true fmt2 ++ ascii ")\n")
            match hexDump (szSub (szBarcode / 8) 2) fuel 2 (s4.print (ascii "Data:")) with
            | .error e => .error e
            | .ok s5 => .ok (true, s5.print (ascii "\n"))

/-! ## Reference descriptions used in the statements -/

/-- Text printed by the two `if (verbose)` blocks at the head of
`decode_barcode` for a buffer `buf`. -/
def verboseText (buf : List Nat) : List Nat :=
  ascii "Manufacturer ID field: " ++ fmtHex true (buf.getD 0 0) ++ ascii "\n"
    ++ (if buf.getD 0 0 = 0xb7 then ascii "Manufacturer: Thinfilm\n"
        else ascii "Manufacturer: unknown\n")
    ++ ascii "Data Format Field: " ++ fmtHex true (buf.getD 1 0) ++ ascii "\n"

/-- State reached after the two `if (verbose)` blocks of `decode_barcode`. -/
def afterHead (verbose : Bool) (s : Io) : Io :=
  if verbose then
    { s with out := s.out ++ verboseText s.buf, reads := s.reads ++ [0, 0, 1] }
  else s

/-- Offset at which the URI scan started at offset `i` with `n` iterations left
stops: the first offset holding `0xFE`, or 14. -/
def uriEnd (buf : List Nat) : Nat → Nat → Nat
  | 0, i => i
  | n + 1, i => if buf.getD i 0 = 0xfe ∨ i = 14 then i else uriEnd buf n (i + 1)

/-- Bytes rendered with `%02x`, two lower-case digits each, no separator. -/
def hexRender : List Nat → List Nat
  | [] => []
  | b :: l => fmtHex false b ++ hexRender l

/-- Text that the `%s` conversion of the URI case prints for a buffer `buf`: the
bytes from offset 2 up to the offset where the scan stopped, then the line
break stored there, cut at the first zero byte. -/
def uriText (buf : List Nat) : List Nat :=
  ((buf.drop 2).take (uriEnd buf 13 2 - 2) ++ [10]).takeWhile (fun b => decide (b ≠ 0))

/-! ## Lemmas on `bits2barcode` -/

theorem bit_le_one (b : Nat) (hb : b ≤ 1) (k : Nat) :
    b.testBit k = (decide (k = 0) && decide (b = 1)) := by
  interval_cases b
  · simp
  · cases k with
    | zero => simp
    | succ k =>
      have : Nat.testBit 1 (k + 1) = false := by
        rw [Nat.testBit_to_div_mod]
        have : 1 / 2 ^ (k + 1) = 0 := Nat.div_eq_of_lt (Nat.one_lt_two_pow (by omega))
        simp [this]
      simp [this]

theorem putShifted_spec (ref : Nat → Bool) (buf : List Nat) (off b : Nat)
    (hinv : ∀ p, outbit buf p = (decide (p < off) && ref p))
    (hb : b ≤ 1) (href : ref off = decide (b = 1)) (hfit : off < 8 * buf.length) :
    ∃ buf1, putShifted b (buf, off) = .ok (buf1, off + 1) ∧ buf1.length = buf.length ∧
      ∀ p, outbit buf1 p = (decide (p < off + 1) && ref p) := by
  have hidx : off / 8 < buf.length := by omega
  refine ⟨buf.set (off / 8) ((buf[off / 8] ||| b <<< (7 - off % 8)) % 256), ?_, by simp, ?_⟩
  · simp [putShifted, orAt, rd, wr, hidx]
  · intro p
    have hold := hinv p
    have hoff := hinv off
    simp only [outbit] at hold hoff ⊢
    by_cases hp : p / 8 = off / 8
    · rw [hp] at hold ⊢
      simp only [List.getD_eq_getElem?_getD, List.getElem?_set_self, hidx, List.getElem?_eq_getElem, Option.getD_some] at hold hoff ⊢
      have h7 : 7 - p % 8 < 8 := by omega
      simp only [Nat.testBit_mod_two_pow, Nat.testBit_or, Nat.testBit_shiftLeft, h7, decide_True, Bool.true_and, show (256 = 2 ^ 8) from rfl]
      rw [hold, bit_le_one b hb]
      by_cases hpo : p = off
      · subst hpo
        simp [href]
      · have h1 : ¬ (7 - p % 8 - (7 - off % 8) = 0 ∧ 7 - p % 8 ≥ 7 - off % 8) := by omega
        have h2 : (decide (7 - p % 8 ≥ 7 - off % 8) && (decide (7 - p % 8 - (7 - off % 8) = 0) && decide (b = 1))) = false := by
          by_cases ha : 7 - p % 8 ≥ 7 - off % 8
          · have : ¬ (7 - p % 8 - (7 - off % 8) = 0) := by omega
            simp [this]
          · simp [ha]
        rw [h2]
        have : (decide (p < off + 1)) = decide (p < off) := by
          apply decide_eq_decide.mpr; omega
        simp [this]
    · have hne : off / 8 ≠ p / 8 := fun h => hp h.symm
      have hpo : p ≠ off := fun h => hp (by rw [h])
      simp only [List.getD_eq_getElem?_getD, List.getElem?_set_ne hne] at hold ⊢
      rw [hold]
      have : (decide (p < off + 1)) = decide (p < off) := by
        apply decide_eq_decide.mpr; omega
      rw [this]

theorem dataBit_le_one (d i : Nat) : (d >>> i) &&& 1 ≤ 1 := by
  rw [Nat.and_one_is_mod]; omega

theorem dataBit_eq (d i : Nat) : d.testBit i = decide ((d >>> i) &&& 1 = 1) := by
  rw [Nat.and_one_is_mod, Nat.shiftRight_eq_div_pow, Nat.testBit_to_div_mod]

theorem forLoop_succ {σ : Type} (body : Nat → σ → Except Fault σ) (n i : Nat) (s : σ) :
    forLoop body (n + 1) i s =
      match body i s with
      | .ok s1 => forLoop body n (i + 1) s1
      | .error e => .error e := rfl

theorem bitLoop_spec (ref : Nat → Bool) (data : List Nat) (szPos d : Nat)
    (hd : data[szPos]? = some d) :
    ∀ n i buf off, (∀ p, outbit buf p = (decide (p < off) && ref p)) →
      (∀ j, j < n → ref (off + j) = d.testBit (i + j)) → off + n ≤ 8 * buf.length →
      ∃ buf1, forLoop (bitBody data szPos) n i (buf, off) = .ok (buf1, off + n) ∧
        buf1.length = buf.length ∧ ∀ p, outbit buf1 p = (decide (p < off + n) && ref p) := by
  intro n
  induction n with
  | zero =>
    intro i buf off hinv _ _
    exact ⟨buf, rfl, rfl, by simpa using hinv⟩
  | succ n ih =>
    intro i buf off hinv href hfit
    have h0 : ref off = decide ((d >>> i) &&& 1 = 1) := by
      have := href 0 (by omega)
      rw [Nat.add_zero, Nat.add_zero, dataBit_eq] at this
      exact this
    obtain ⟨buf1, hrun, hlen, hinv1⟩ :=
      putShifted_spec ref buf off ((d >>> i) &&& 1) hinv (dataBit_le_one d i) h0 (by omega)
    obtain ⟨buf2, hrun2, hlen2, hinv2⟩ := ih (i + 1) buf1 (off + 1) hinv1
      (fun j hj => by
        have := href (j + 1) (by omega)
        rw [show off + 1 + j = off + (j + 1) by omega, show i + 1 + j = i + (j + 1) by omega]
        exact this)
      (by rw [hlen]; omega)
    refine ⟨buf2, ?_, by rw [hlen2, hlen], ?_⟩
    · rw [forLoop_succ]
      simp only [bitBody, rd, hd, hrun]
      rw [hrun2, show off + 1 + n = off + (n + 1) by omega]
    · intro p
      rw [hinv2 p, show off + 1 + n = off + (n + 1) by omega]

theorem groupLoop_spec (ref : Nat → Bool) (data par : List Nat) :
    ∀ n g buf, (∀ p, outbit buf p = (decide (p < 1 + 9 * g) && ref p)) →
      g + n ≤ data.length → g + n ≤ par.length →
      (∀ j, g ≤ j → j < g + n → par.getD j 0 ≤ 1) →
      (∀ j k, g ≤ j → j < g + n → k < 8 → ref (1 + 9 * j + k) = (data.getD j 0).testBit k) →
      (∀ j, g ≤ j → j < g + n → ref (1 + 9 * j + 8) = decide (par.getD j 0 = 1)) →
      1 + 9 * (g + n) ≤ 8 * buf.length →
      ∃ buf1, forLoop (groupBody data par) n g (buf, 1 + 9 * g) = .ok (buf1, 1 + 9 * (g + n)) ∧
        buf1.length = buf.length ∧
        ∀ p, outbit buf1 p = (decide (p < 1 + 9 * (g + n)) && ref p) := by
  intro n
  induction n with
  | zero =>
    intro g buf hinv _ _ _ _ _ _
    exact ⟨buf, rfl, rfl, by simpa using hinv⟩
  | succ n ih =>
    intro g buf hinv hdl hpl hp01 hrd hrp hfit
    have hgd : g < data.length := by omega
    have hgp : g < par.length := by omega
    have hd : data[g]? = some data[g] := List.getElem?_eq_getElem hgd
    have hpq : par[g]? = some par[g] := List.getElem?_eq_getElem hgp
    have hdD : data.getD g 0 = data[g] := by simp [hgd]
    have hpD : par.getD g 0 = par[g] := by simp [hgp]
    obtain ⟨buf1, hrun1, hlen1, hinv1⟩ := bitLoop_spec ref data g data[g] hd 8 0 buf (1 + 9 * g) hinv
      (fun j hj => by
        have := hrd g j (by omega) (by omega) hj
        rw [hdD] at this
        simpa using this)
      (by omega)
    obtain ⟨buf2, hrun2, hlen2, hinv2⟩ := putShifted_spec ref buf1 (1 + 9 * g + 8) par[g] hinv1
      (by have := hp01 g (by omega) (by omega); rwa [hpD] at this)
      (by have := hrp g (by omega) (by omega); rwa [hpD] at this)
      (by rw [hlen1]; omega)
    have he : 1 + 9 * g + 8 + 1 = 1 + 9 * (g + 1) := by omega
    rw [he] at hrun2 hinv2
    obtain ⟨buf3, hrun3, hlen3, hinv3⟩ := ih (g + 1) buf2 hinv2 (by omega) (by omega)
      (fun j h1 h2 => hp01 j (by omega) (by omega))
      (fun j k h1 h2 hk => hrd j k (by omega) (by omega) hk)
      (fun j h1 h2 => hrp j (by omega) (by omega))
      (by rw [hlen2, hlen1]; omega)
    refine ⟨buf3, ?_, by rw [hlen3, hlen2, hlen1], ?_⟩
    · rw [forLoop_succ]
      simp only [groupBody, hrun1, rd, hpq, hrun2]
      rw [hrun3, show g + 1 + n = g + (n + 1) by omega]
    · intro p
      rw [hinv3 p, show g + 1 + n = g + (n + 1) by omega]

theorem zeroFill_spec (sz : Nat) (hsz : sz ≤ 255) :
    ∀ n fuel i buf, i + n = sz → buf.length = sz → n < fuel →
      (∀ j, j < i → buf.getD j 0 = 0) →
      zeroFill sz fuel i buf = .ok (List.replicate sz 0) := by
  intro n
  induction n with
  | zero =>
    intro fuel i buf hi hlen hfuel hz
    obtain ⟨f, rfl⟩ : ∃ f, fuel = f + 1 := ⟨fuel - 1, by omega⟩
    have : ¬ i < sz := by omega
    simp only [zeroFill, this, if_false]
    congr 1
    apply List.ext_getElem (by simp [hlen])
    intro j h1 h2
    have := hz j (by omega)
    simp [h1] at this
    simp [this]
  | succ n ih =>
    intro fuel i buf hi hlen hfuel hz
    obtain ⟨f, rfl⟩ : ∃ f, fuel = f + 1 := ⟨fuel - 1, by omega⟩
    have hlt : i < sz := by omega
    have hlt2 : i < buf.length := by omega
    have hmod : (i + 1) % 256 = i + 1 := Nat.mod_eq_of_lt (by omega)
    simp only [zeroFill, hlt, if_true, wr, hlt2, hmod]
    apply ih f (i + 1) _ (by omega) (by simp [hlen]) (by omega)
    intro j hj
    by_cases hji : j = i
    · subst hji; simp [hlt2]
    · have := hz j (by omega)
      simp only [List.getD_eq_getElem?_getD] at this ⊢
      rw [List.getElem?_set_ne (fun h => hji h.symm)]
      exact this

theorem zeroFill_diverges (sz : Nat) (hsz : 256 ≤ sz) :
    ∀ fuel i buf, i < 256 → 256 ≤ buf.length → zeroFill sz fuel i buf = .error .outOfFuel := by
  intro fuel
  induction fuel with
  | zero => intro i buf _ _; rfl
  | succ f ih =>
    intro i buf hi hlen
    have h1 : i < sz := by omega
    have h2 : i < buf.length := by omega
    simp only [zeroFill, h1, if_true, wr, h2]
    exact ih _ _ (Nat.mod_lt _ (by omega)) (by simpa using hlen)

theorem outbit_replicate_zero (n p : Nat) : outbit (List.replicate n 0) p = false := by
  unfold outbit
  by_cases h : p / 8 < n
  · simp [List.getElem?_replicate, h]
  · simp [List.getElem?_replicate, h]


theorem frameBit_zero (data par : List Nat) (szBits : Nat) : frameBit data par szBits 0 = true := by
  simp [frameBit]

theorem frameBit_data (data par : List Nat) (szBits g k : Nat) (hg : g < szBits / 8) (hk : k < 8) :
    frameBit data par szBits (1 + 9 * g + k) = (data.getD g 0).testBit k := by
  have h1 : (1 + 9 * g + k - 1) / 9 = g := by omega
  have h2 : (1 + 9 * g + k - 1) % 9 = k := by omega
  have h3 : ¬ (1 + 9 * g + k = 0) := by omega
  simp only [frameBit, h1, h2, h3, if_false, hg, hk, if_true]

theorem frameBit_parity (data par : List Nat) (szBits g : Nat) (hg : g < szBits / 8) :
    frameBit data par szBits (1 + 9 * g + 8) = decide (par.getD g 0 = 1) := by
  have h1 : (1 + 9 * g + 8 - 1) / 9 = g := by omega
  have h2 : (1 + 9 * g + 8 - 1) % 9 = 8 := by omega
  have h3 : ¬ (1 + 9 * g + 8 = 0) := by omega
  simp only [frameBit, h1, h2, h3, if_false, hg, if_true, Nat.lt_irrefl]

theorem frameBit_lastGroup (data par : List Nat) (szBits k : Nat) (hk : k < szBits % 8) :
    frameBit data par szBits (1 + 9 * (szBits / 8) + k) = (data.getD (szBits / 8) 0).testBit k := by
  have h1 : (1 + 9 * (szBits / 8) + k - 1) / 9 = szBits / 8 := by omega
  have h2 : (1 + 9 * (szBits / 8) + k - 1) % 9 = k := by omega
  have h3 : ¬ (1 + 9 * (szBits / 8) + k = 0) := by omega
  simp only [frameBit, h1, h2, h3, if_false, Nat.lt_irrefl, hk, and_self, if_true]

/-- Full description of a run of `bits2barcode` on a zeroed or dirty buffer of
exactly `szBarcode` bytes, `szBarcode` at most 255, that holds the result. -/
theorem bits2barcode_spec (fuel : Nat) (data : List Nat) (szBits : Nat) (par buf : List Nat)
    (sz : Nat) (hsz : sz ≤ 255) (hlen : buf.length = sz) (hfuel : sz < fuel)
    (hdata : szBits ≤ 8 * data.length) (hpar : szBits / 8 ≤ par.length)
    (hp01 : ∀ g, g < szBits / 8 → par.getD g 0 ≤ 1)
    (hfit : 1 + 9 * (szBits / 8) + szBits % 8 ≤ 8 * sz) :
    ∃ out, bits2barcodeBody fuel data szBits par buf sz
        = .ok (out, 1 + 9 * (szBits / 8) + szBits % 8) ∧ out.length = sz ∧
      ∀ p, outbit out p
        = (decide (p < 1 + 9 * (szBits / 8) + szBits % 8) && frameBit data par szBits p) := by
  have hz := zeroFill_spec sz hsz sz fuel 0 buf (by omega) hlen hfuel (fun j hj => by omega)
  obtain ⟨b1, hrun1, hlen1, hinv1⟩ := putShifted_spec (frameBit data par szBits)
    (List.replicate sz 0) 0 1 (fun p => by simp [outbit_replicate_zero]) (le_refl 1)
    (by simp [frameBit_zero]) (by simp; omega)
  have hl1 : b1.length = sz := by simpa using hlen1
  obtain ⟨b2, hrun2, hlen2, hinv2⟩ := groupLoop_spec (frameBit data par szBits) data par
    (szBits / 8) 0 b1 (by simpa using hinv1) (by omega) (by omega)
    (fun j _ hj => hp01 j (by omega))
    (fun j k _ hj hk => frameBit_data data par szBits j k (by omega) hk)
    (fun j _ hj => frameBit_parity data par szBits j (by omega))
    (by rw [hl1]; omega)
  have hl2 : b2.length = sz := by rw [hlen2, hl1]
  simp only [Nat.mul_zero, Nat.add_zero, Nat.zero_add] at hrun2 hinv2 hrun1
  by_cases hr : szBits % 8 = 0
  · refine ⟨b2, ?_, hl2, ?_⟩
    · simp only [bits2barcodeBody, hz, hrun1, hrun2, hr, forLoop, Nat.add_zero]
    · intro p; rw [hinv2 p, hr, Nat.add_zero]
  · have hq : szBits / 8 < data.length := by omega
    obtain ⟨b3, hrun3, hlen3, hinv3⟩ := bitLoop_spec (frameBit data par szBits) data (szBits / 8)
      data[szBits / 8] (List.getElem?_eq_getElem hq) (szBits % 8) 0 b2 (1 + 9 * (szBits / 8)) hinv2
      (fun j hj => by
        rw [frameBit_lastGroup data par szBits j hj, Nat.zero_add]
        simp [hq])
      (by rw [hl2]; omega)
    refine ⟨b3, ?_, by rw [hlen3, hl2], hinv3⟩
    simp only [bits2barcodeBody, hz, hrun1, hrun2, hrun3]

theorem forLoop_congr {σ : Type} (b1 b2 : Nat → σ → Except Fault σ) : ∀ n i s,
    (∀ j t, i ≤ j → j < i + n → b1 j t = b2 j t) → forLoop b1 n i s = forLoop b2 n i s := by
  intro n
  induction n with
  | zero => intro i s _; rfl
  | succ n ih =>
    intro i s h
    rw [forLoop_succ, forLoop_succ, h i s (le_refl i) (by omega)]
    cases b2 i s with
    | error e => rfl
    | ok s1 => exact ih (i + 1) s1 (fun j t h1 h2 => h j t (by omega) (by omega))

theorem bits2barcode_par_congr (fuel : Nat) (data : List Nat) (n : Nat) (par par2 buf : List Nat)
    (sz : Nat) (h : ∀ g, g < n / 8 → par2[g]? = par[g]?) :
    bits2barcodeBody fuel data n par2 buf sz = bits2barcodeBody fuel data n par buf sz := by
  have hb : ∀ st, forLoop (groupBody data par2) (n / 8) 0 st
      = forLoop (groupBody data par) (n / 8) 0 st := by
    intro st
    apply forLoop_congr
    intro j t _ hj
    simp only [groupBody, rd, h j (by omega)]
  simp only [bits2barcodeBody, hb]

theorem toInt_small (off : Nat) (h : off < 2 ^ 31) : toInt off = (off : Int) := by
  unfold toInt
  have h1 : off % 2 ^ 32 = off := Nat.mod_eq_of_lt (by omega)
  rw [h1, if_pos h]

theorem bits2barcode_of_body (fuel : Nat) (data : List Nat) (szBits : Nat) (par buf : List Nat)
    (sz : Nat) (out : List Nat) (off : Nat)
    (h : bits2barcodeBody fuel data szBits par buf sz = .ok (out, off)) :
    bits2barcode fuel data szBits par buf sz = .ok (out, toInt off) := by
  simp only [bits2barcode, h]

theorem bits2barcode_of_body_small (fuel : Nat) (data : List Nat) (szBits : Nat)
    (par buf : List Nat) (sz : Nat) (out : List Nat) (off : Nat)
    (h : bits2barcodeBody fuel data szBits par buf sz = .ok (out, off)) (hoff : off < 2 ^ 31) :
    bits2barcode fuel data szBits par buf sz = .ok (out, (off : Int)) := by
  rw [bits2barcode_of_body _ _ _ _ _ _ _ _ h, toInt_small off hoff]

theorem bits2barcode_of_body_error (fuel : Nat) (data : List Nat) (szBits : Nat)
    (par buf : List Nat) (sz : Nat) (e : Fault)
    (h : bits2barcodeBody fuel data szBits par buf sz = .error e) :
    bits2barcode fuel data szBits par buf sz = .error e := by
  simp only [bits2barcode, h]

theorem byte_of_bits : ∀ d, d < 256 →
    ((List.range 8).map (fun k => (d.testBit k).toNat * 2 ^ k)).sum = d := by
  set_option maxRecDepth 100000 in decide

theorem mask80_of_testBit (x : Nat) (h : x.testBit 7 = true) : x &&& 0x80 = 0x80 := by
  apply Nat.eq_of_testBit_eq
  intro i
  rw [Nat.testBit_and]
  by_cases hi : i = 7
  · subst hi; simp [h]
  · have : Nat.testBit 0x80 i = false := by
      rw [show (0x80 : Nat) = 2 ^ 7 from rfl, Nat.testBit_two_pow]
      simp; omega
    simp [this]

theorem not_ok_of_zeroFill_diverges (fuel : Nat) (data : List Nat) (szBits : Nat)
    (par buf : List Nat) (sz : Nat) (hsz : 256 ≤ sz) (hlen : 256 ≤ buf.length) :
    bits2barcode fuel data szBits par buf sz = .error .outOfFuel := by
  simp only [bits2barcode, bits2barcodeBody, zeroFill_diverges sz hsz fuel 0 buf (by omega) hlen]

/-- C1 (code defect): one group into an output buffer of declared capacity 256
bytes, large enough for the 10 bits of the result.  The claim has `bits2barcode`
return 10; the `uint8_t` counter of the zero-initialisation loop wraps at 256, the
loop never ends, and no step budget makes the function return. -/
theorem C1_capacity_256_never_returns :
    ¬ ∃ fuel out, bits2barcode fuel [0] 8 [0] (List.replicate 256 0) 256 = .ok (out, 10) := by
  rintro ⟨fuel, out, h⟩
  rw [not_ok_of_zeroFill_diverges fuel [0] 8 [0] (List.replicate 256 0) 256 (by omega) (by rw [List.length_replicate])] at h
  cases h

/-- Where the zero-initialisation loop ends (declared capacity at most 255 bytes)
the code does what C1 says: for every bit count `n` that is a multiple of 8, data
of `n / 8` bytes and `n / 8` parity bits, and an output buffer that holds the
result, `bits2barcode` returns `1 + 9 * (n / 8)` and bit 0 of the output (mask
`0x80` of byte 0) is set. -/
theorem C1_length_and_start_bit (fuel n : Nat) (data par buf : List Nat) (sz : Nat)
    (hn : n % 8 = 0) (hdata : data.length = n / 8) (hpar : par.length = n / 8)
    (hp01 : ∀ x ∈ par, x ≤ 1) (hlen : buf.length = sz) (hsz : sz ≤ 255)
    (hfit : 1 + 9 * (n / 8) ≤ 8 * sz) (hfuel : sz < fuel) :
    ∃ out, bits2barcode fuel data n par buf sz = .ok (out, ((1 + 9 * (n / 8) : Nat) : Int)) ∧
      outbit out 0 = true ∧ out.getD 0 0 &&& 0x80 = 0x80 := by
  obtain ⟨out, hrun, _, hbits⟩ := bits2barcode_spec fuel data n par buf sz hsz hlen hfuel
    (by omega) (by omega)
    (fun g hg => by
      have hg2 : g < par.length := by omega
      have : par.getD g 0 = par[g] := by simp [hg2]
      rw [this]; exact hp01 _ (List.getElem_mem hg2))
    (by omega)
  rw [hn, Nat.add_zero] at hrun hbits
  have h0 : outbit out 0 = true := by
    rw [hbits 0, frameBit_zero]; simp
  refine ⟨out, bits2barcode_of_body_small _ _ _ _ _ _ _ _ hrun (by omega), h0, ?_⟩
  apply mask80_of_testBit
  simpa [outbit] using h0

/-- Instance of `C1_length_and_start_bit`: one byte `0xA5` with parity 1 into a dirty 2-byte buffer. -/
theorem C1_witness :
    (8 % 8 = 0 ∧ [0xA5].length = 8 / 8 ∧ [1].length = 8 / 8 ∧ (∀ x ∈ [1], x ≤ 1) ∧
      [7, 7].length = 2 ∧ 2 ≤ 255 ∧ 1 + 9 * (8 / 8) ≤ 8 * 2 ∧ 2 < 3) ∧
    ∃ out, bits2barcode 3 [0xA5] 8 [1] [7, 7] 2 = .ok (out, ((1 + 9 * (8 / 8) : Nat) : Int)) ∧
      outbit out 0 = true ∧ out.getD 0 0 &&& 0x80 = 0x80 :=
  ⟨by decide, C1_length_and_start_bit 3 8 [0xA5] [1] [7, 7] 2 (by decide) (by decide) (by decide)
    (by decide) (by decide) (by decide) (by decide) (by decide)⟩

theorem parity_bits_getD (par : List Nat) (hp01 : ∀ x ∈ par, x ≤ 1) (q : Nat)
    (hq : q ≤ par.length) : ∀ g, g < q → par.getD g 0 ≤ 1 := by
  intro g hg
  have hg2 : g < par.length := by omega
  have : par.getD g 0 = par[g] := by simp [hg2]
  rw [this]; exact hp01 _ (List.getElem_mem hg2)

/-- C2 (code defect): one group with parity bit 1 into a buffer of declared
capacity 256 bytes, where the result fits.  The claim fixes every output bit of
the group; the zero-initialisation loop never ends (its `uint8_t` counter wraps at
256), so no step budget yields an output buffer. -/
theorem C2_capacity_256_never_returns :
    ¬ ∃ fuel out off, bits2barcode fuel [0xA5] 8 [1] (List.replicate 256 0) 256 = .ok (out, off) := by
  rintro ⟨fuel, out, off, h⟩
  rw [not_ok_of_zeroFill_diverges fuel [0xA5] 8 [1] (List.replicate 256 0) 256 (by omega)
    (by rw [List.length_replicate])] at h
  cases h

/-- Where the zero-initialisation loop ends (declared capacity at most 255 bytes)
the code does what C2 says: for every input whose parity bytes are 0 or 1 and
whose result fits the output buffer, `bits2barcode` returns, and for every
complete group `g` and `k = 0..7` the output bit
`1 + 9 * g + k` is bit `k` of data byte `g` and the output bit `1 + 9 * g + 8` is
parity bit `g`. -/
theorem C2_bit_layout (fuel szBits : Nat) (data par buf : List Nat) (sz : Nat)
    (hdata : szBits ≤ 8 * data.length) (hpar : szBits / 8 ≤ par.length)
    (hp01 : ∀ x ∈ par, x ≤ 1) (hlen : buf.length = sz) (hsz : sz ≤ 255)
    (hfit : 1 + 9 * (szBits / 8) + szBits % 8 ≤ 8 * sz) (hfuel : sz < fuel) :
    ∃ out off, bits2barcode fuel data szBits par buf sz = .ok (out, off) ∧
      ∀ g, g < szBits / 8 →
        (∀ k, k < 8 → outbit out (1 + 9 * g + k) = (data.getD g 0).testBit k) ∧
        outbit out (1 + 9 * g + 8) = decide (par.getD g 0 = 1) := by
  obtain ⟨out, hrun, _, hbits⟩ := bits2barcode_spec fuel data szBits par buf sz hsz hlen hfuel
    hdata hpar (parity_bits_getD par hp01 _ hpar) hfit
  refine ⟨out, _, bits2barcode_of_body _ _ _ _ _ _ _ _ hrun, fun g hg => ⟨fun k hk => ?_, ?_⟩⟩
  · rw [hbits, frameBit_data data par szBits g k hg hk]
    have : 1 + 9 * g + k < 1 + 9 * (szBits / 8) + szBits % 8 := by omega
    simp [this]
  · rw [hbits, frameBit_parity data par szBits g hg]
    have : 1 + 9 * g + 8 < 1 + 9 * (szBits / 8) + szBits % 8 := by omega
    simp [this]

/-- Instance of `C2_bit_layout`: two groups and three more bits into a dirty 3-byte buffer. -/
theorem C2_witness :
    (19 ≤ 8 * [0xA5, 0x3C, 0x05].length ∧ 19 / 8 ≤ [1, 0].length ∧ (∀ x ∈ [1, 0], x ≤ 1) ∧
      [9, 9, 9].length = 3 ∧ 3 ≤ 255 ∧ 1 + 9 * (19 / 8) + 19 % 8 ≤ 8 * 3 ∧ 3 < 4) ∧
    ∃ out off, bits2barcode 4 [0xA5, 0x3C, 0x05] 19 [1, 0] [9, 9, 9] 3 = .ok (out, off) ∧
      ∀ g, g < 19 / 8 →
        (∀ k, k < 8 → outbit out (1 + 9 * g + k) = (([0xA5, 0x3C, 0x05] : List Nat).getD g 0).testBit k) ∧
        outbit out (1 + 9 * g + 8) = decide (([1, 0] : List Nat).getD g 0 = 1) :=
  ⟨by decide, C2_bit_layout 4 19 [0xA5, 0x3C, 0x05] [1, 0] [9, 9, 9] 3 (by decide) (by decide)
    (by decide) (by decide) (by decide) (by decide) (by decide)⟩

theorem extractByte_eq (out : List Nat) (g d : Nat) (hd : d < 256)
    (h : ∀ k, k < 8 → outbit out (1 + 9 * g + k) = d.testBit k) : extractByte out g = d := by
  unfold extractByte
  rw [← byte_of_bits d hd]
  congr 1
  apply List.map_congr_left
  intro k hk
  rw [h k (List.mem_range.mp hk)]

theorem extractParity_eq (out : List Nat) (g p : Nat) (hp : p ≤ 1)
    (h : outbit out (1 + 9 * g + 8) = decide (p = 1)) : extractParity out g = p := by
  unfold extractParity
  rw [h]
  interval_cases p <;> simp

theorem map_range_getD (l : List Nat) : (List.range l.length).map (fun g => l.getD g 0) = l := by
  apply List.ext_getElem (by simp)
  intro i h1 h2
  simp at h1
  simp [h1]

/-- Round trip on one input, used for both halves of C3. -/
theorem round_trip_core (fuel n : Nat) (data par buf : List Nat) (sz : Nat)
    (hn : n % 8 = 0) (hdata : data.length = n / 8) (hpar : par.length = n / 8)
    (hbytes : ∀ x ∈ data, x < 256) (hp01 : ∀ x ∈ par, x ≤ 1) (hlen : buf.length = sz)
    (hsz : sz ≤ 255) (hfit : 1 + 9 * (n / 8) ≤ 8 * sz) (hfuel : sz < fuel) :
    ∃ out, bits2barcode fuel data n par buf sz = .ok (out, ((1 + 9 * (n / 8) : Nat) : Int)) ∧
      extractData out (n / 8) = data ∧ extractPar out (n / 8) = par := by
  obtain ⟨out, hrun, _, hbits⟩ := bits2barcode_spec fuel data n par buf sz hsz hlen hfuel
    (by omega) (by omega) (parity_bits_getD par hp01 _ (by omega)) (by omega)
  rw [hn, Nat.add_zero] at hrun hbits
  refine ⟨out, bits2barcode_of_body_small _ _ _ _ _ _ _ _ hrun (by omega), ?_, ?_⟩
  · have : extractData out (n / 8) = (List.range data.length).map (fun g => data.getD g 0) := by
      unfold extractData
      rw [hdata]
      apply List.map_congr_left
      intro g hg
      have hg1 : g < n / 8 := List.mem_range.mp hg
      have hg2 : g < data.length := by omega
      apply extractByte_eq
      · have : data.getD g 0 = data[g] := by simp [hg2]
        rw [this]; exact hbytes _ (List.getElem_mem hg2)
      · intro k hk
        rw [hbits, frameBit_data data par n g k hg1 hk]
        have : 1 + 9 * g + k < 1 + 9 * (n / 8) := by omega
        simp [this]
    rw [this, map_range_getD]
  · have : extractPar out (n / 8) = (List.range par.length).map (fun g => par.getD g 0) := by
      unfold extractPar
      rw [hpar]
      apply List.map_congr_left
      intro g hg
      have hg1 : g < n / 8 := List.mem_range.mp hg
      apply extractParity_eq
      · exact parity_bits_getD par hp01 _ (by omega) g hg1
      · rw [hbits, frameBit_parity data par n g hg1]
        have : 1 + 9 * g + 8 < 1 + 9 * (n / 8) := by omega
        simp [this]
    rw [this, map_range_getD]

/-- C3 (code defect): two different one-byte inputs into a buffer of declared
capacity 256 bytes, where the result fits.  The claim recovers each input from
the reframed buffer; the zero-initialisation loop never ends (its `uint8_t`
counter wraps at 256), so no step budget yields a reframed buffer, and both
inputs have the same outcome for every budget. -/
theorem C3_capacity_256_never_returns :
    (¬ ∃ fuel out off,
      bits2barcode fuel [0x12] 8 [0] (List.replicate 256 0) 256 = .ok (out, off)) ∧
    (¬ ∃ fuel, bits2barcode fuel [0x12] 8 [0] (List.replicate 256 0) 256
        ≠ bits2barcode fuel [0x34] 8 [1] (List.replicate 256 0) 256) := by
  constructor
  · rintro ⟨fuel, out, off, h⟩
    rw [not_ok_of_zeroFill_diverges fuel [0x12] 8 [0] (List.replicate 256 0) 256 (by omega)
      (by rw [List.length_replicate])] at h
    cases h
  · rintro ⟨fuel, h⟩
    apply h
    rw [not_ok_of_zeroFill_diverges fuel [0x12] 8 [0] (List.replicate 256 0) 256 (by omega)
      (by rw [List.length_replicate]),
      not_ok_of_zeroFill_diverges fuel [0x34] 8 [1] (List.replicate 256 0) 256 (by omega)
      (by rw [List.length_replicate])]

/-- Where the zero-initialisation loop ends (declared capacity at most 255 bytes)
the code does what C3 says: for every input whose bit count `n` is a multiple of
8, with data bytes below 256, parity bytes 0 or 1, and an output buffer that
holds the result, `bits2barcode` returns a buffer
from which the eight data bits of each 9-bit group after the start bit give back
the data bytes and the ninth bits give back the parity bits; and any other such
input of the same length with the same outcome is the same input. -/
theorem C3_round_trip (fuel n : Nat) (data par buf : List Nat) (sz : Nat)
    (hn : n % 8 = 0) (hdata : data.length = n / 8) (hpar : par.length = n / 8)
    (hbytes : ∀ x ∈ data, x < 256) (hp01 : ∀ x ∈ par, x ≤ 1) (hlen : buf.length = sz)
    (hsz : sz ≤ 255) (hfit : 1 + 9 * (n / 8) ≤ 8 * sz) (hfuel : sz < fuel) :
    ∃ out, bits2barcode fuel data n par buf sz = .ok (out, ((1 + 9 * (n / 8) : Nat) : Int)) ∧
      extractData out (n / 8) = data ∧ extractPar out (n / 8) = par ∧
      ∀ data2 par2 buf2 : List Nat, data2.length = n / 8 → par2.length = n / 8 →
        (∀ x ∈ data2, x < 256) → (∀ x ∈ par2, x ≤ 1) → buf2.length = sz →
        bits2barcode fuel data2 n par2 buf2 sz = bits2barcode fuel data n par buf sz →
        data2 = data ∧ par2 = par := by
  obtain ⟨out, hrun, hd, hp⟩ :=
    round_trip_core fuel n data par buf sz hn hdata hpar hbytes hp01 hlen hsz hfit hfuel
  refine ⟨out, hrun, hd, hp, ?_⟩
  intro data2 par2 buf2 hdata2 hpar2 hbytes2 hp012 hlen2 heq
  obtain ⟨out2, hrun2, hd2, hp2⟩ :=
    round_trip_core fuel n data2 par2 buf2 sz hn hdata2 hpar2 hbytes2 hp012 hlen2 hsz hfit hfuel
  rw [hrun, hrun2] at heq
  have ho : out2 = out := by
    injection heq with h1
    exact (Prod.mk.inj h1).1
  rw [ho] at hd2 hp2
  exact ⟨hd2.symm.trans hd, hp2.symm.trans hp⟩

/-- Instance of `C3_round_trip`: two bytes with their parity bits into a dirty 3-byte buffer. -/
theorem C3_witness :
    (16 % 8 = 0 ∧ [0xA5, 0x3C].length = 16 / 8 ∧ [1, 0].length = 16 / 8 ∧
      (∀ x ∈ [0xA5, 0x3C], x < 256) ∧ (∀ x ∈ [1, 0], x ≤ 1) ∧ [9, 9, 9].length = 3 ∧
      3 ≤ 255 ∧ 1 + 9 * (16 / 8) ≤ 8 * 3 ∧ 3 < 4) ∧
    ∃ out, bits2barcode 4 [0xA5, 0x3C] 16 [1, 0] [9, 9, 9] 3
        = .ok (out, ((1 + 9 * (16 / 8) : Nat) : Int)) ∧
      extractData out (16 / 8) = [0xA5, 0x3C] ∧ extractPar out (16 / 8) = [1, 0] ∧
      ∀ data2 par2 buf2 : List Nat, data2.length = 16 / 8 → par2.length = 16 / 8 →
        (∀ x ∈ data2, x < 256) → (∀ x ∈ par2, x ≤ 1) → buf2.length = 3 →
        bits2barcode 4 data2 16 par2 buf2 3 = bits2barcode 4 [0xA5, 0x3C] 16 [1, 0] [9, 9, 9] 3 →
        data2 = [0xA5, 0x3C] ∧ par2 = [1, 0] :=
  ⟨by decide, C3_round_trip 4 16 [0xA5, 0x3C] [1, 0] [9, 9, 9] 3 (by decide) (by decide)
    (by decide) (by decide) (by decide) (by decide) (by decide) (by decide) (by decide)⟩

/-- C4 (code defect): 113 bits into a buffer of declared capacity 256 bytes, where
the 128 bits of the result fit.  The claim has `bits2barcode` return 128; the
zero-initialisation loop never ends (its `uint8_t` counter wraps at 256), and no
step budget makes the function return. -/
theorem C4_capacity_256_never_returns :
    ¬ ∃ fuel out, bits2barcode fuel (List.replicate 15 0xFF) 113 (List.replicate 14 1)
      (List.replicate 256 0) 256 = .ok (out, 128) := by
  rintro ⟨fuel, out, h⟩
  rw [not_ok_of_zeroFill_diverges fuel _ 113 _ (List.replicate 256 0) 256 (by omega)
    (by rw [List.length_replicate])] at h
  cases h

/-- Where the zero-initialisation loop ends (declared capacity at most 255 bytes)
the code does what C4 says: for every bit count `n` with `r = n % 8 > 0` and
`q = n / 8`, parity bytes 0 or 1 and an output buffer that holds the result,
`bits2barcode` returns `1 + 9 * q + r`; output bit
`1 + 9 * q + k` is bit `k` of data byte `q` for `k < r`; every output bit from
position `1 + 9 * q + r` on is 0; and the outcome depends on the parity bytes of
the `q` complete groups only, so no parity bit is written for group `q`. -/
theorem C4_partial_group (fuel n : Nat) (data par buf : List Nat) (sz : Nat)
    (hr : 0 < n % 8) (hdata : n ≤ 8 * data.length) (hpar : n / 8 ≤ par.length)
    (hp01 : ∀ x ∈ par, x ≤ 1) (hlen : buf.length = sz) (hsz : sz ≤ 255)
    (hfit : 1 + 9 * (n / 8) + n % 8 ≤ 8 * sz) (hfuel : sz < fuel) :
    ∃ out, bits2barcode fuel data n par buf sz
        = .ok (out, ((1 + 9 * (n / 8) + n % 8 : Nat) : Int)) ∧
      (∀ k, k < n % 8 → outbit out (1 + 9 * (n / 8) + k) = (data.getD (n / 8) 0).testBit k) ∧
      (∀ p, 1 + 9 * (n / 8) + n % 8 ≤ p → outbit out p = false) ∧
      (∀ par2 : List Nat, (∀ g, g < n / 8 → par2[g]? = par[g]?) →
        bits2barcode fuel data n par2 buf sz = bits2barcode fuel data n par buf sz) := by
  obtain ⟨out, hrun, _, hbits⟩ := bits2barcode_spec fuel data n par buf sz hsz hlen hfuel
    hdata hpar (parity_bits_getD par hp01 _ hpar) hfit
  refine ⟨out, bits2barcode_of_body_small _ _ _ _ _ _ _ _ hrun (by omega), fun k hk => ?_,
    fun p hp => ?_,
    fun par2 h => by simp only [bits2barcode, bits2barcode_par_congr fuel data n par par2 buf sz h]⟩
  · rw [hbits, frameBit_lastGroup data par n k hk]
    have : 1 + 9 * (n / 8) + k < 1 + 9 * (n / 8) + n % 8 := by omega
    simp [this]
  · rw [hbits]
    have : ¬ p < 1 + 9 * (n / 8) + n % 8 := by omega
    simp [this]

/-- Instance of `C4_partial_group`: 113 bits, 15 data bytes and only 14 parity bytes, into a
16-byte buffer: the effective length is 128. -/
theorem C4_witness :
    (0 < 113 % 8 ∧
      113 ≤ 8 * [1, 2, 3, 4, 5, 6, 7, 8, 9, 10, 11, 12, 13, 14, 15].length ∧
      113 / 8 ≤ [1, 0, 1, 0, 1, 0, 1, 0, 1, 0, 1, 0, 1, 0].length ∧
      (∀ x ∈ [1, 0, 1, 0, 1, 0, 1, 0, 1, 0, 1, 0, 1, 0], x ≤ 1) ∧
      (List.replicate 16 0xFF).length = 16 ∧ 16 ≤ 255 ∧
      1 + 9 * (113 / 8) + 113 % 8 ≤ 8 * 16 ∧ 16 < 17) ∧
    ∃ out, bits2barcode 17 [1, 2, 3, 4, 5, 6, 7, 8, 9, 10, 11, 12, 13, 14, 15] 113
        [1, 0, 1, 0, 1, 0, 1, 0, 1, 0, 1, 0, 1, 0] (List.replicate 16 0xFF) 16
          = .ok (out, ((1 + 9 * (113 / 8) + 113 % 8 : Nat) : Int)) ∧
      (∀ k, k < 113 % 8 → outbit out (1 + 9 * (113 / 8) + k)
        = (([1, 2, 3, 4, 5, 6, 7, 8, 9, 10, 11, 12, 13, 14, 15] : List Nat).getD (113 / 8) 0).testBit k) ∧
      (∀ p, 1 + 9 * (113 / 8) + 113 % 8 ≤ p → outbit out p = false) ∧
      (∀ par2 : List Nat,
        (∀ g, g < 113 / 8 → par2[g]? = ([1, 0, 1, 0, 1, 0, 1, 0, 1, 0, 1, 0, 1, 0] : List Nat)[g]?) →
        bits2barcode 17 [1, 2, 3, 4, 5, 6, 7, 8, 9, 10, 11, 12, 13, 14, 15] 113 par2
            (List.replicate 16 0xFF) 16
          = bits2barcode 17 [1, 2, 3, 4, 5, 6, 7, 8, 9, 10, 11, 12, 13, 14, 15] 113
            [1, 0, 1, 0, 1, 0, 1, 0, 1, 0, 1, 0, 1, 0] (List.replicate 16 0xFF) 16) :=
  ⟨by decide, C4_partial_group 17 113 [1, 2, 3, 4, 5, 6, 7, 8, 9, 10, 11, 12, 13, 14, 15]
    [1, 0, 1, 0, 1, 0, 1, 0, 1, 0, 1, 0, 1, 0] (List.replicate 16 0xFF) 16 (by decide) (by decide)
    (by decide) (by decide) (by decide) (by decide) (by decide) (by decide)⟩


/-! ## Lemmas on `validate_crc` -/

theorem load_ok (s : Io) (i : Nat) (h : i < s.buf.length) :
    s.load i = .ok (s.buf.getD i 0, { s with reads := s.reads ++ [i] }) := by
  simp [Io.load, h]

theorem crcLoop_spec : ∀ n i w (s : Io), i + n ≤ s.buf.length →
    crcLoop n i w s = .ok (((s.buf.drop i).take n).foldl crcStep w,
      { s with reads := s.reads ++ List.range' i n }) := by
  intro n
  induction n with
  | zero => intro i w s _; simp [crcLoop]
  | succ n ih =>
    intro i w s h
    have hi : i < s.buf.length := by omega
    rw [crcLoop, load_ok s i hi]
    simp only
    rw [ih (i + 1) _ _ (by simpa using (by omega : i + 1 + n ≤ s.buf.length))]
    have hd : s.buf.drop i = s.buf.getD i 0 :: s.buf.drop (i + 1) := by
      rw [List.drop_eq_getElem_cons hi]; simp [hi]
    simp [hd, List.range'_succ]

theorem iso14443a_crc_spec (s : Io) (szLen : Nat) (h : szLen ≤ s.buf.length) :
    iso14443a_crc s szLen = .ok
      ((crcA (s.buf.take szLen) &&& 0xFF, (crcA (s.buf.take szLen) >>> 8) &&& 0xFF),
        { s with reads := s.reads ++ List.range' 0 szLen }) := by
  simp [iso14443a_crc, crcLoop_spec szLen 0 0x6363 s (by omega), crcA]

theorem szSub_small (a b : Nat) (hb : b ≤ a) (ha : a < 2 ^ 64) : szSub a b = a - b := by
  unfold szSub
  rw [show a + 2 ^ 64 - b = (a - b) + 2 ^ 64 by omega, Nat.add_mod_right]
  exact Nat.mod_eq_of_lt (by omega)

@[simp] theorem print_buf (s : Io) (t : List Nat) : (s.print t).buf = s.buf := rfl

@[simp] theorem print_reads (s : Io) (t : List Nat) : (s.print t).reads = s.reads := rfl

@[simp] theorem print_out (s : Io) (t : List Nat) : (s.print t).out = s.out ++ t := rfl

/-- Run of `validate_crc` on a complete record. -/
theorem validate_crc_complete (verbose : Bool) (s : Io) (L : Nat) (hL : L % 128 = 0)
    (h16 : 16 ≤ L / 8) (hrange : L < 2 ^ 64) (hlen : L / 8 ≤ s.buf.length) :
    ∃ s1 : Io, s1.buf = s.buf ∧ s1.reads = s.reads ++ List.range' 0 (L / 8 - 2) ++ [L / 8 - 2] ∧
      validate_crc verbose s L =
        if (crcA (s.buf.take (L / 8 - 2)) >>> 8) &&& 0xFF = s.buf.getD (L / 8 - 2) 0 then
          .ok (decide (crcA (s.buf.take (L / 8 - 2)) &&& 0xFF = s.buf.getD (L / 8 - 1) 0),
            { s1 with reads := s1.reads ++ [L / 8 - 1] })
        else .ok (false, s1) := by
  have h2 : szSub (L / 8) 2 = L / 8 - 2 := szSub_small _ _ (by omega) (by omega)
  have h1 : szSub (L / 8) 1 = L / 8 - 1 := szSub_small _ _ (by omega) (by omega)
  have hne : ¬ (L % 128 ≠ 0) := by omega
  obtain ⟨s2, hs2, hb2, hr2⟩ : ∃ s2 : Io,
      s2 = (if verbose = true then
          ({ s with reads := s.reads ++ List.range' 0 (L / 8 - 2) } : Io).print
            (ascii "Computed CRC: "
              ++ fmtHex true ((crcA (s.buf.take (L / 8 - 2)) >>> 8) &&& 0xFF) ++ ascii " "
              ++ fmtHex true (crcA (s.buf.take (L / 8 - 2)) &&& 0xFF) ++ ascii "\n")
        else { s with reads := s.reads ++ List.range' 0 (L / 8 - 2) }) ∧
      s2.buf = s.buf ∧ s2.reads = s.reads ++ List.range' 0 (L / 8 - 2) := by
    refine ⟨_, rfl, ?_, ?_⟩ <;> split <;> rfl
  refine ⟨{ s2 with reads := s2.reads ++ [L / 8 - 2] }, hb2, by simp [hr2], ?_⟩
  simp only [validate_crc, hne, if_false, h2, h1, iso14443a_crc_spec s (L / 8 - 2) (by omega)]
  rw [← hs2, load_ok s2 (L / 8 - 2) (by rw [hb2]; omega)]
  simp only [hb2]
  split
  · rw [load_ok _ (L / 8 - 1) (by simp only [hb2]; omega)]
  · rfl

/-! ## Claims on `validate_crc` -/

/-- C5: for every bit length that is not a multiple of 128 and any state of the
buffer (an empty buffer included), `validate_crc` returns false, having printed
only the warning: the buffer is unchanged and the read log is unchanged, so no
byte was loaded and no CRC was computed or compared. -/
theorem C5_incomplete_returns_false (verbose : Bool) (s : Io) (L : Nat) (h : L % 128 ≠ 0) :
    validate_crc verbose s L = .ok (false,
      { buf := s.buf,
        out := s.out ++ ascii "Warning, NFC Barcode seems incomplete, skipping CRC\n",
        reads := s.reads }) := by
  simp [validate_crc, h, Io.print]

/-- C5 (witness): length 127 on an empty buffer, verbose mode. -/
theorem C5_witness :
    127 % 128 ≠ 0 ∧
    validate_crc true ⟨[], [], []⟩ 127 = .ok (false,
      { buf := [],
        out := [] ++ ascii "Warning, NFC Barcode seems incomplete, skipping CRC\n",
        reads := [] }) :=
  ⟨by decide, C5_incomplete_returns_false true ⟨[], [], []⟩ 127 (by decide)⟩

/-- C6: for every bit length `L` that is a multiple of 128 with `L / 8 ≥ 16` and
every buffer holding the `L / 8` bytes of the record, `validate_crc` returns, and
it returns true exactly when the second-to-last and the last byte of the record
are the two bytes `pbtCrc[1]` and `pbtCrc[0]` that `iso14443a_crc` computes on
the first `L / 8 - 2` bytes alone. -/
theorem C6_valid_iff_trailing_crc (verbose : Bool) (s : Io) (L : Nat) (hL : L % 128 = 0)
    (h16 : 16 ≤ L / 8) (hrange : L < 2 ^ 64) (hlen : L / 8 ≤ s.buf.length) :
    ∃ pbtCrc t b s1,
      iso14443a_crc ⟨s.buf.take (L / 8 - 2), [], []⟩ (L / 8 - 2) = .ok (pbtCrc, t) ∧
      validate_crc verbose s L = .ok (b, s1) ∧
      (b = true ↔
        s.buf.getD (L / 8 - 2) 0 = pbtCrc.2 ∧ s.buf.getD (L / 8 - 1) 0 = pbtCrc.1) := by
  obtain ⟨s1, _, _, hrun⟩ := validate_crc_complete verbose s L hL h16 hrange hlen
  have hcrc := iso14443a_crc_spec ⟨s.buf.take (L / 8 - 2), [], []⟩ (L / 8 - 2)
    (by simp; omega)
  simp only [List.take_take, Nat.min_self] at hcrc
  by_cases hhi : (crcA (s.buf.take (L / 8 - 2)) >>> 8) &&& 0xFF = s.buf.getD (L / 8 - 2) 0
  · rw [if_pos hhi] at hrun
    refine ⟨_, _, _, _, hcrc, hrun, ?_⟩
    simp only [decide_eq_true_eq]
    constructor
    · intro h; exact ⟨hhi.symm, h.symm⟩
    · intro h; exact h.2.symm
  · rw [if_neg hhi] at hrun
    refine ⟨_, _, _, _, hcrc, hrun, ?_⟩
    constructor
    · intro h; cases h
    · intro h; exact absurd h.1.symm hhi

/-- C6 (witness): the 16-byte record of fourteen zero bytes followed by `BD E8`. -/
theorem C6_witness :
    (128 % 128 = 0 ∧ 16 ≤ 128 / 8 ∧ 128 < 2 ^ 64 ∧
      128 / 8 ≤ (⟨[0, 0, 0, 0, 0, 0, 0, 0, 0, 0, 0, 0, 0, 0, 0xBD, 0xE8], [], []⟩ : Io).buf.length) ∧
    ∃ pbtCrc t b s1,
      iso14443a_crc ⟨(⟨[0, 0, 0, 0, 0, 0, 0, 0, 0, 0, 0, 0, 0, 0, 0xBD, 0xE8], [], []⟩ : Io).buf.take
        (128 / 8 - 2), [], []⟩ (128 / 8 - 2) = .ok (pbtCrc, t) ∧
      validate_crc false ⟨[0, 0, 0, 0, 0, 0, 0, 0, 0, 0, 0, 0, 0, 0, 0xBD, 0xE8], [], []⟩ 128
        = .ok (b, s1) ∧
      (b = true ↔
        (⟨[0, 0, 0, 0, 0, 0, 0, 0, 0, 0, 0, 0, 0, 0, 0xBD, 0xE8], [], []⟩ : Io).buf.getD
            (128 / 8 - 2) 0 = pbtCrc.2 ∧
          (⟨[0, 0, 0, 0, 0, 0, 0, 0, 0, 0, 0, 0, 0, 0, 0xBD, 0xE8], [], []⟩ : Io).buf.getD
            (128 / 8 - 1) 0 = pbtCrc.1) :=
  ⟨by decide, C6_valid_iff_trailing_crc false
    ⟨[0, 0, 0, 0, 0, 0, 0, 0, 0, 0, 0, 0, 0, 0, 0xBD, 0xE8], [], []⟩ 128
    (by decide) (by decide) (by decide) (by decide)⟩

/-- C7 (refuted as stated): the CRC of fourteen zero bytes is `0xBDE8`, so
`iso14443a_crc` stores the low byte `0xE8` in `pbtCrc[0]` and the high byte `0xBD`
in `pbtCrc[1]`.  The record that ends with low byte then high byte (`E8 BD`) is
rejected, and the record that ends with high byte then low byte (`BD E8`) is
accepted. -/
theorem C7_counterexample_low_byte_last :
    (iso14443a_crc ⟨[0, 0, 0, 0, 0, 0, 0, 0, 0, 0, 0, 0, 0, 0], [], []⟩ 14).map Prod.fst
      = .ok (0xE8, 0xBD) ∧
    (validate_crc false ⟨[0, 0, 0, 0, 0, 0, 0, 0, 0, 0, 0, 0, 0, 0, 0xE8, 0xBD], [], []⟩ 128).map
      Prod.fst = .ok false ∧
    (validate_crc false ⟨[0, 0, 0, 0, 0, 0, 0, 0, 0, 0, 0, 0, 0, 0, 0xBD, 0xE8], [], []⟩ 128).map
      Prod.fst = .ok true :=
  ⟨rfl, rfl, rfl⟩

/-- C7 (amended): on every complete record the high byte of the computed CRC
(`pbtCrc[1]`, `crc >> 8`) is the one compared against the second-to-last byte of
the record, and the low byte (`pbtCrc[0]`, `crc & 0xFF`) the one compared against
the last byte; when the high byte differs the result is false and the last byte
is not loaded. -/
theorem C7_crc_byte_order (verbose : Bool) (s : Io) (L : Nat) (hL : L % 128 = 0)
    (h16 : 16 ≤ L / 8) (hrange : L < 2 ^ 64) (hlen : L / 8 ≤ s.buf.length) :
    ∃ b s1, validate_crc verbose s L = .ok (b, s1) ∧
      (b = true ↔
        (crcA (s.buf.take (L / 8 - 2)) >>> 8) &&& 0xFF = s.buf.getD (L / 8 - 2) 0 ∧
          crcA (s.buf.take (L / 8 - 2)) &&& 0xFF = s.buf.getD (L / 8 - 1) 0) ∧
      ((crcA (s.buf.take (L / 8 - 2)) >>> 8) &&& 0xFF ≠ s.buf.getD (L / 8 - 2) 0 →
        b = false ∧ s1.reads = s.reads ++ List.range' 0 (L / 8 - 2) ++ [L / 8 - 2]) := by
  obtain ⟨s1, _, hr1, hrun⟩ := validate_crc_complete verbose s L hL h16 hrange hlen
  by_cases hhi : (crcA (s.buf.take (L / 8 - 2)) >>> 8) &&& 0xFF = s.buf.getD (L / 8 - 2) 0
  · rw [if_pos hhi] at hrun
    refine ⟨_, _, hrun, ?_, fun h => absurd hhi h⟩
    simp only [decide_eq_true_eq]
    exact ⟨fun h => ⟨hhi, h⟩, fun h => h.2⟩
  · rw [if_neg hhi] at hrun
    refine ⟨_, _, hrun, ?_, fun _ => ⟨rfl, hr1⟩⟩
    exact ⟨fun h => (by cases h), fun h => absurd h.1 hhi⟩

/-- C7 (witness): the record of fourteen zero bytes followed by `BD E8`. -/
theorem C7_witness :
    (128 % 128 = 0 ∧ 16 ≤ 128 / 8 ∧ 128 < 2 ^ 64 ∧
      128 / 8 ≤ (⟨[0, 0, 0, 0, 0, 0, 0, 0, 0, 0, 0, 0, 0, 0, 0xBD, 0xE8], [], []⟩ : Io).buf.length) ∧
    ∃ b s1,
      validate_crc true ⟨[0, 0, 0, 0, 0, 0, 0, 0, 0, 0, 0, 0, 0, 0, 0xBD, 0xE8], [], []⟩ 128
        = .ok (b, s1) ∧
      (b = true ↔
        (crcA ((⟨[0, 0, 0, 0, 0, 0, 0, 0, 0, 0, 0, 0, 0, 0, 0xBD, 0xE8], [], []⟩ : Io).buf.take
            (128 / 8 - 2)) >>> 8) &&& 0xFF
          = (⟨[0, 0, 0, 0, 0, 0, 0, 0, 0, 0, 0, 0, 0, 0, 0xBD, 0xE8], [], []⟩ : Io).buf.getD
            (128 / 8 - 2) 0 ∧
        crcA ((⟨[0, 0, 0, 0, 0, 0, 0, 0, 0, 0, 0, 0, 0, 0, 0xBD, 0xE8], [], []⟩ : Io).buf.take
            (128 / 8 - 2)) &&& 0xFF
          = (⟨[0, 0, 0, 0, 0, 0, 0, 0, 0, 0, 0, 0, 0, 0, 0xBD, 0xE8], [], []⟩ : Io).buf.getD
            (128 / 8 - 1) 0) ∧
      ((crcA ((⟨[0, 0, 0, 0, 0, 0, 0, 0, 0, 0, 0, 0, 0, 0, 0xBD, 0xE8], [], []⟩ : Io).buf.take
            (128 / 8 - 2)) >>> 8) &&& 0xFF
          ≠ (⟨[0, 0, 0, 0, 0, 0, 0, 0, 0, 0, 0, 0, 0, 0, 0xBD, 0xE8], [], []⟩ : Io).buf.getD
            (128 / 8 - 2) 0 →
        b = false ∧ s1.reads = ([] : List Nat) ++ List.range' 0 (128 / 8 - 2) ++ [128 / 8 - 2]) :=
  ⟨by decide, C7_crc_byte_order true
    ⟨[0, 0, 0, 0, 0, 0, 0, 0, 0, 0, 0, 0, 0, 0, 0xBD, 0xE8], [], []⟩ 128
    (by decide) (by decide) (by decide) (by decide)⟩

/-! ## Lemmas on `decode_barcode` -/

theorem store_ok (s : Io) (i v : Nat) (h : i < s.buf.length) :
    s.store i v = .ok { s with buf := s.buf.set i (v % 256) } := by
  simp [Io.store, h]

theorem decodeVerbose_spec (s : Io) (h : 2 ≤ s.buf.length) :
    decodeVerbose s = .ok (afterHead true s) := by
  unfold decodeVerbose
  rw [load_ok s 0 (by omega)]
  simp only [print_buf]
  rw [load_ok _ 0 (by simp only [print_buf]; omega)]
  simp only [print_buf]
  rw [load_ok _ 1 (by simp only [print_buf]; omega)]
  simp [afterHead, verboseText, Io.print, List.append_assoc]

theorem head_spec (verbose : Bool) (s : Io) (h : 2 ≤ s.buf.length) :
    (if verbose = true then decodeVerbose s else .ok s) = .ok (afterHead verbose s) := by
  cases verbose
  · simp [afterHead]
  · simp [decodeVerbose_spec s h]

@[simp] theorem afterHead_buf (verbose : Bool) (s : Io) : (afterHead verbose s).buf = s.buf := by
  unfold afterHead; split <;> rfl

theorem uriEnd_bounds (buf : List Nat) : ∀ n i, i + n = 15 → 1 ≤ n →
    i ≤ uriEnd buf n i ∧ uriEnd buf n i ≤ 14 := by
  intro n
  induction n with
  | zero => intro i _ h; omega
  | succ n ih =>
    intro i hi _
    unfold uriEnd
    split
    · omega
    · rename_i hc
      have h14 : i ≠ 14 := fun h => hc (Or.inr h)
      have := ih (i + 1) (by omega) (by omega)
      omega

theorem uriEnd_stop (buf : List Nat) : ∀ n i, i + n = 15 → 1 ≤ n →
    (buf.getD (uriEnd buf n i) 0 = 0xfe ∨ uriEnd buf n i = 14) ∧
    ∀ k, i ≤ k → k < uriEnd buf n i → buf.getD k 0 ≠ 0xfe := by
  intro n
  induction n with
  | zero => intro i _ h; omega
  | succ n ih =>
    intro i hi _
    unfold uriEnd
    split
    · rename_i hc
      exact ⟨hc, fun k h1 h2 => by omega⟩
    · rename_i hc
      have h14 : i ≠ 14 := fun h => hc (Or.inr h)
      obtain ⟨h1, h2⟩ := ih (i + 1) (by omega) (by omega)
      refine ⟨h1, fun k hk1 hk2 => ?_⟩
      by_cases hki : k = i
      · subst hki; exact fun h => hc (Or.inl h)
      · exact h2 k (by omega) hk2

theorem uriEnd_unique (buf : List Nat) (t : Nat) : ∀ n i, i + n = 15 → 1 ≤ n → i ≤ t → t ≤ 14 →
    (buf.getD t 0 = 0xfe ∨ t = 14) → (∀ k, i ≤ k → k < t → buf.getD k 0 ≠ 0xfe) →
    uriEnd buf n i = t := by
  intro n
  induction n with
  | zero => intro i _ h; omega
  | succ n ih =>
    intro i hi _ hit ht hstop hbefore
    unfold uriEnd
    split
    · rename_i hc
      by_cases hlt : i < t
      · rcases hc with hc | hc
        · exact absurd hc (hbefore i (le_refl i) hlt)
        · omega
      · omega
    · rename_i hc
      have hne : i ≠ t := by
        intro h; subst h
        rcases hstop with h | h
        · exact hc (Or.inl h)
        · exact hc (Or.inr h)
      exact ih (i + 1) (by omega) (by omega) (by omega) ht hstop
        (fun k h1 h2 => hbefore k (by omega) h2)

theorem set_two : ∀ (t : Nat) (l : List Nat) (x y : Nat), t + 1 < l.length →
    (l.set t x).set (t + 1) y = l.take t ++ x :: y :: l.drop (t + 2) := by
  intro t
  induction t with
  | zero =>
    intro l x y h
    match l, h with
    | a :: b :: rest, _ => simp
  | succ t ih =>
    intro l x y h
    match l, h with
    | a :: l1, h =>
      have h1 : t + 1 < l1.length := by simpa using h
      simp only [List.set_cons_succ, List.take_succ_cons, List.cons_append, List.drop_succ_cons]
      rw [ih l1 x y h1]

theorem uriScan_spec : ∀ n i (s : Io), i + n = 15 → 1 ≤ n → 16 ≤ s.buf.length →
    uriScan n i s = .ok
      { buf := (s.buf.set (uriEnd s.buf n i) 10).set (uriEnd s.buf n i + 1) 0,
        out := s.out,
        reads := s.reads ++ List.range' i (uriEnd s.buf n i + 1 - i) } := by
  intro n
  induction n with
  | zero => intro i s _ h; omega
  | succ n ih =>
    intro i s hi _ hlen
    rw [uriScan, load_ok s i (by omega)]
    simp only
    unfold uriEnd
    split
    · rw [store_ok _ i 10 (by simp only; omega)]
      simp only
      rw [store_ok _ (i + 1) 0 (by simp only [List.length_set]; omega)]
      simp
    · rename_i hc
      have h14 : i ≠ 14 := fun h => hc (Or.inr h)
      rw [ih (i + 1) _ (by omega) (by omega) (by simpa using hlen)]
      have hb := uriEnd_bounds s.buf n (i + 1) (by omega) (by omega)
      simp only [List.append_assoc, List.singleton_append]
      congr 2
      rw [show uriEnd s.buf n (i + 1) + 1 - i = (uriEnd s.buf n (i + 1) + 1 - (i + 1)) + 1 by omega,
        List.range'_succ]

theorem printStr_spec : ∀ (l : List Nat) (n i : Nat) (s : Io), s.buf.drop i = l → 0 ∈ l →
    l.length < n + 1 →
    printStr n i s = .ok
      { s with out := s.out ++ l.takeWhile (fun b => decide (b ≠ 0)),
               reads := s.reads ++ List.range' i ((l.takeWhile (fun b => decide (b ≠ 0))).length + 1) } := by
  intro l
  induction l with
  | nil => intro n i s _ h; cases h
  | cons b l ih =>
    intro n i s hd h0 hn
    obtain ⟨m, rfl⟩ : ∃ m, n = m + 1 := ⟨n - 1, by simp at hn; omega⟩
    have hi : i < s.buf.length := by
      by_contra hge
      rw [List.drop_eq_nil_of_le (by omega)] at hd
      cases hd
    have hb : s.buf.getD i 0 = b := by
      rw [List.drop_eq_getElem_cons hi] at hd
      simp only [List.cons.injEq] at hd
      simp [hi, hd.1]
    have hl : s.buf.drop (i + 1) = l := by
      rw [List.drop_eq_getElem_cons hi] at hd
      exact (List.cons.inj hd).2
    rw [printStr, load_ok s i hi, hb]
    simp only
    by_cases hz : b = 0
    · simp [hz]
    · have h0l : 0 ∈ l := by
        rcases List.mem_cons.mp h0 with h | h
        · exact absurd h.symm hz
        · exact h
      simp only [hz, if_false]
      rw [ih m (i + 1) _ (by simpa using hl) h0l (by simp at hn ⊢; omega)]
      simp [List.takeWhile_cons, hz, List.range'_succ, List.append_assoc]

theorem takeWhile_stop (A C : List Nat) (x : Nat) :
    (A ++ x :: 0 :: C).takeWhile (fun b => decide (b ≠ 0))
      = (A ++ [x]).takeWhile (fun b => decide (b ≠ 0)) := by
  induction A with
  | nil => simp [List.takeWhile_cons]
  | cons a A ih => simp only [List.cons_append, List.takeWhile_cons, ih]

/-- Run of `decode_barcode` on a record whose format byte is 1, 2, 3 or 4. -/
theorem decode_uri_spec (verbose : Bool) (fuel : Nat) (s : Io) (L : Nat) (hL : L % 128 = 0)
    (hlen : 16 ≤ s.buf.length)
    (hf : s.buf.getD 1 0 = 1 ∨ s.buf.getD 1 0 = 2 ∨ s.buf.getD 1 0 = 3 ∨ s.buf.getD 1 0 = 4) :
    decode_barcode verbose fuel s L = .ok (true,
      { buf := s.buf.take (uriEnd s.buf 13 2) ++ 10 :: 0 :: s.buf.drop (uriEnd s.buf 13 2 + 2),
        out := (afterHead verbose s).out ++ uriPrefix (s.buf.getD 1 0) ++ uriText s.buf,
        reads := (afterHead verbose s).reads ++ [1, 1]
          ++ List.range' 2 (uriEnd s.buf 13 2 - 1)
          ++ List.range' 2 ((uriText s.buf).length + 1) }) := by
  have hne : ¬ (L % 128 ≠ 0) := by omega
  have hf0 : ¬ (s.buf.getD 1 0 = 0) := by omega
  obtain ⟨hb1, hb2⟩ := uriEnd_bounds s.buf 13 2 (by omega) (by omega)
  have hset := set_two (uriEnd s.buf 13 2) s.buf 10 0 (by omega)
  have hdrop : (s.buf.take (uriEnd s.buf 13 2) ++ 10 :: 0 :: s.buf.drop (uriEnd s.buf 13 2 + 2)).drop 2
      = (s.buf.drop 2).take (uriEnd s.buf 13 2 - 2) ++ 10 :: 0 :: s.buf.drop (uriEnd s.buf 13 2 + 2) := by
    rw [List.drop_append_of_le_length (by rw [List.length_take]; omega), List.drop_take]
  unfold decode_barcode
  simp only [hne, if_false]
  rw [head_spec verbose s (by omega)]
  simp only
  rw [load_ok _ 1 (by rw [afterHead_buf]; omega)]
  simp only [afterHead_buf, hf0, if_false, hf, if_true]
  rw [load_ok _ 1 (by simp only [afterHead_buf]; omega)]
  simp only [afterHead_buf]
  rw [uriScan_spec 13 2 _ (by omega) (by omega) (by simp only [print_buf]; omega)]
  simp only [print_buf, print_out, print_reads, hset]
  rw [printStr_spec _ _ 2 _ hdrop (by simp) (by simp; omega)]
  simp only [takeWhile_stop]
  simp only [uriText, List.append_assoc, show uriEnd s.buf 13 2 + 1 - 2 = uriEnd s.buf 13 2 - 1 by omega]
  rfl

theorem epcLoop_spec : ∀ n i (s : Io), i + 2 + n ≤ s.buf.length →
    forLoop epcBody n i s = .ok
      { s with out := s.out ++ hexRender ((s.buf.drop (i + 2)).take n),
               reads := s.reads ++ List.range' (i + 2) n } := by
  intro n
  induction n with
  | zero => intro i s _; simp [forLoop, hexRender]
  | succ n ih =>
    intro i s h
    have hi : i + 2 < s.buf.length := by omega
    rw [forLoop_succ, epcBody, load_ok s (i + 2) hi]
    simp only
    rw [ih (i + 1) _ (by simp only [print_buf]; omega)]
    have hd : s.buf.drop (i + 2) = s.buf.getD (i + 2) 0 :: s.buf.drop (i + 1 + 2) := by
      rw [List.drop_eq_getElem_cons hi]; simp [hi]
    simp only [print_buf, print_out, print_reads, hd, List.take_succ_cons, hexRender,
      List.range'_succ, List.append_assoc, List.singleton_append]

theorem hexDump_spec (bound : Nat) (hbound : bound ≤ 255) : ∀ n fuel i (s : Io), i + n = bound →
    bound ≤ s.buf.length → n < fuel →
    hexDump bound fuel i s = .ok
      { s with out := s.out ++ hexRender ((s.buf.drop i).take n),
               reads := s.reads ++ List.range' i n } := by
  intro n
  induction n with
  | zero =>
    intro fuel i s hi _ hfuel
    obtain ⟨f, rfl⟩ : ∃ f, fuel = f + 1 := ⟨fuel - 1, by omega⟩
    have : ¬ i < bound := by omega
    simp [hexDump, this, hexRender]
  | succ n ih =>
    intro fuel i s hi hlen hfuel
    obtain ⟨f, rfl⟩ : ∃ f, fuel = f + 1 := ⟨fuel - 1, by omega⟩
    have hlt : i < bound := by omega
    have hi2 : i < s.buf.length := by omega
    have hmod : (i + 1) % 256 = i + 1 := Nat.mod_eq_of_lt (by omega)
    rw [hexDump, if_pos hlt, load_ok s i hi2]
    simp only [hmod]
    rw [ih f (i + 1) _ (by omega) (by simp only [print_buf]; omega) (by omega)]
    have hd : s.buf.drop i = s.buf.getD i 0 :: s.buf.drop (i + 1) := by
      rw [List.drop_eq_getElem_cons hi2]; simp [hi2]
    simp only [print_buf, print_out, print_reads, hd, List.take_succ_cons, hexRender,
      List.range'_succ, List.append_assoc, List.singleton_append]

theorem hexDump_diverges (bound : Nat) (hbound : 256 ≤ bound) : ∀ fuel i (s : Io), i < 256 →
    256 ≤ s.buf.length → hexDump bound fuel i s = .error .outOfFuel := by
  intro fuel
  induction fuel with
  | zero => intro i s _ _; rfl
  | succ f ih =>
    intro i s hi hlen
    rw [hexDump, if_pos (by omega), load_ok s i (by omega)]
    exact ih _ _ (Nat.mod_lt _ (by omega)) (by simpa using hlen)

/-- Run of `decode_barcode` on a record whose format byte is 0. -/
theorem decode_reserved_spec (verbose : Bool) (fuel : Nat) (s : Io) (L : Nat)
    (hL : L % 128 = 0) (hlen : 2 ≤ s.buf.length) (hf : s.buf.getD 1 0 = 0) :
    decode_barcode verbose fuel s L = .ok (false,
      { buf := s.buf,
        out := (afterHead verbose s).out
          ++ ascii "Data Format Field: Reserved for allocation by tag manufacturer\n",
        reads := (afterHead verbose s).reads ++ [1] }) := by
  have hne : ¬ (L % 128 ≠ 0) := by omega
  unfold decode_barcode
  simp only [hne, if_false]
  rw [head_spec verbose s hlen]
  simp only
  rw [load_ok _ 1 (by rw [afterHead_buf]; omega)]
  simp only [afterHead_buf, hf, if_true, Io.print]

/-- Run of `decode_barcode` on a record whose format byte is 5. -/
theorem decode_epc_spec (verbose : Bool) (fuel : Nat) (s : Io) (L : Nat)
    (hL : L % 128 = 0) (hlen : 14 ≤ s.buf.length) (hf : s.buf.getD 1 0 = 5) :
    decode_barcode verbose fuel s L = .ok (true,
      { buf := s.buf,
        out := (afterHead verbose s).out ++ ascii "EPC: "
          ++ hexRender ((s.buf.drop 2).take 12) ++ ascii "\n",
        reads := (afterHead verbose s).reads ++ [1] ++ List.range' 2 12 }) := by
  have hne : ¬ (L % 128 ≠ 0) := by omega
  unfold decode_barcode
  simp only [hne, if_false]
  rw [head_spec verbose s (by omega)]
  simp only
  rw [load_ok _ 1 (by rw [afterHead_buf]; omega)]
  simp only [afterHead_buf, hf]
  rw [epcLoop_spec 12 0 _ (by simp only [print_buf]; omega)]
  simp [Io.print, List.append_assoc]

/-- Run of `decode_barcode` on a record whose format byte is none of 0..5, the
record being at most 257 bytes long. -/
theorem decode_unknown_spec (verbose : Bool) (fuel : Nat) (s : Io) (L : Nat)
    (hL : L % 128 = 0) (h16 : 16 ≤ L / 8) (hmax : L / 8 ≤ 257) (hlen : L / 8 ≤ s.buf.length)
    (hfuel : L / 8 < fuel) (hf : 5 < s.buf.getD 1 0) :
    decode_barcode verbose fuel s L = .ok (true,
      { buf := s.buf,
        out := (afterHead verbose s).out
          ++ ascii "Data Format Field: unknown (" ++ fmtHex true (s.buf.getD 1 0) ++ ascii ")\n"
          ++ ascii "Data:" ++ hexRender ((s.buf.drop 2).take (L / 8 - 4)) ++ ascii "\n",
        reads := (afterHead verbose s).reads ++ [1, 1] ++ List.range' 2 (L / 8 - 4) }) := by
  have hne : ¬ (L % 128 ≠ 0) := by omega
  have h2 : szSub (L / 8) 2 = L / 8 - 2 := szSub_small _ _ (by omega) (by omega)
  have hf0 : ¬ (s.buf.getD 1 0 = 0) := by omega
  have hf14 : ¬ (s.buf.getD 1 0 = 1 ∨ s.buf.getD 1 0 = 2 ∨ s.buf.getD 1 0 = 3 ∨ s.buf.getD 1 0 = 4) := by
    omega
  have hf5 : ¬ (s.buf.getD 1 0 = 5) := by omega
  unfold decode_barcode
  simp only [hne, if_false]
  rw [head_spec verbose s (by omega)]
  simp only
  rw [load_ok _ 1 (by rw [afterHead_buf]; omega)]
  simp only [afterHead_buf, hf0, hf14, hf5, if_false, h2]
  rw [load_ok _ 1 (by simp only [afterHead_buf]; omega)]
  simp only [afterHead_buf]
  rw [hexDump_spec (L / 8 - 2) (by omega) (L / 8 - 4) fuel 2 _ (by omega)
    (by simp only [print_buf]; omega) (by omega)]
  simp [Io.print, List.append_assoc]

theorem decode_unknown_diverges (verbose : Bool) (fuel : Nat) (s : Io) (L : Nat)
    (hL : L % 128 = 0) (hbig : 258 ≤ L / 8) (hrange : L < 2 ^ 64) (hlen : L / 8 ≤ s.buf.length)
    (hf : 5 < s.buf.getD 1 0) :
    decode_barcode verbose fuel s L = .error .outOfFuel := by
  have hne : ¬ (L % 128 ≠ 0) := by omega
  have h2 : szSub (L / 8) 2 = L / 8 - 2 := szSub_small _ _ (by omega) (by omega)
  have hf0 : ¬ (s.buf.getD 1 0 = 0) := by omega
  have hf14 : ¬ (s.buf.getD 1 0 = 1 ∨ s.buf.getD 1 0 = 2 ∨ s.buf.getD 1 0 = 3 ∨ s.buf.getD 1 0 = 4) := by
    omega
  have hf5 : ¬ (s.buf.getD 1 0 = 5) := by omega
  unfold decode_barcode
  simp only [hne, if_false]
  rw [head_spec verbose s (by omega)]
  simp only
  rw [load_ok _ 1 (by rw [afterHead_buf]; omega)]
  simp only [afterHead_buf, hf0, hf14, hf5, if_false, h2]
  rw [load_ok _ 1 (by simp only [afterHead_buf]; omega)]
  simp only [afterHead_buf]
  rw [hexDump_diverges (L / 8 - 2) (by omega) fuel 2 _ (by omega)
    (by simp only [print_buf]; omega)]

/-! ## Claims on `decode_barcode` -/

/-- C8 (code defect): a complete record of 272 bytes (2176 bits) whose format byte
is 6.  The claim has `decode_barcode` return success; the loop that prints the
data compares its `uint8_t` counter with the bound 270 and never ends, so
`decode_barcode` returns neither success nor failure for any step budget. -/
theorem C8_long_record_never_returns :
    ¬ ∃ fuel r, decode_barcode false fuel ⟨0xB7 :: 6 :: List.replicate 270 0, [], []⟩ 2176
      = .ok r := by
  rintro ⟨fuel, r, h⟩
  rw [decode_unknown_diverges false fuel ⟨0xB7 :: 6 :: List.replicate 270 0, [], []⟩ 2176
    (by decide) (by decide) (by decide) (by simp only [List.length_cons, List.length_replicate]; decide)
    (by decide)] at h
  cases h

/-- Where the loop that prints the data ends (a record of at most 257 bytes when
the format byte is none of 0..5) the code does what C8 says: for every complete
record (bit length a multiple of 128, at least 16 bytes) and every byte content,
`decode_barcode` returns, and it returns failure exactly when the
format byte (byte 1) is 0; for format 0 the buffer is unchanged, the only text
after the verbose head is the fixed message, and no byte at an offset above 1 is
loaded. -/
theorem C8_fails_iff_reserved (verbose : Bool) (fuel : Nat) (s : Io) (L : Nat)
    (hL : L % 128 = 0) (h16 : 16 ≤ L / 8) (hlen : L / 8 ≤ s.buf.length)
    (hmax : 5 < s.buf.getD 1 0 → L / 8 ≤ 257) (hfuel : L / 8 < fuel) :
    ∃ b s1, decode_barcode verbose fuel s L = .ok (b, s1) ∧
      (b = false ↔ s.buf.getD 1 0 = 0) ∧
      (s.buf.getD 1 0 = 0 →
        s1.buf = s.buf ∧
        s1.out = (afterHead verbose s).out
          ++ ascii "Data Format Field: Reserved for allocation by tag manufacturer\n" ∧
        s1.reads = (afterHead verbose s).reads ++ [1]) := by
  by_cases h0 : s.buf.getD 1 0 = 0
  · exact ⟨_, _, decode_reserved_spec verbose fuel s L hL (by omega) h0,
      ⟨fun _ => h0, fun _ => rfl⟩, fun _ => ⟨rfl, rfl, rfl⟩⟩
  · by_cases h14 : s.buf.getD 1 0 = 1 ∨ s.buf.getD 1 0 = 2 ∨ s.buf.getD 1 0 = 3 ∨ s.buf.getD 1 0 = 4
    · exact ⟨_, _, decode_uri_spec verbose fuel s L hL (by omega) h14,
        ⟨fun h => (by cases h), fun h => absurd h h0⟩, fun h => absurd h h0⟩
    · by_cases h5 : s.buf.getD 1 0 = 5
      · exact ⟨_, _, decode_epc_spec verbose fuel s L hL (by omega) h5,
          ⟨fun h => (by cases h), fun h => absurd h h0⟩, fun h => absurd h h0⟩
      · have h6 : 5 < s.buf.getD 1 0 := by omega
        exact ⟨_, _, decode_unknown_spec verbose fuel s L hL h16 (hmax h6) hlen hfuel h6,
          ⟨fun h => (by cases h), fun h => absurd h h0⟩, fun h => absurd h h0⟩

/-- Instance of `C8_fails_iff_reserved`: a 16-byte record with format byte 0 and arbitrary other bytes. -/
theorem C8_witness :
    (128 % 128 = 0 ∧ 16 ≤ 128 / 8 ∧
      128 / 8 ≤ (⟨[0xB7, 0, 1, 2, 3, 4, 5, 6, 7, 8, 9, 10, 11, 12, 13, 14], [], []⟩ : Io).buf.length ∧
      (5 < (⟨[0xB7, 0, 1, 2, 3, 4, 5, 6, 7, 8, 9, 10, 11, 12, 13, 14], [], []⟩ : Io).buf.getD 1 0 →
        128 / 8 ≤ 257) ∧ 128 / 8 < 17) ∧
    ∃ b s1, decode_barcode false 17
        ⟨[0xB7, 0, 1, 2, 3, 4, 5, 6, 7, 8, 9, 10, 11, 12, 13, 14], [], []⟩ 128 = .ok (b, s1) ∧
      (b = false ↔
        (⟨[0xB7, 0, 1, 2, 3, 4, 5, 6, 7, 8, 9, 10, 11, 12, 13, 14], [], []⟩ : Io).buf.getD 1 0 = 0) ∧
      ((⟨[0xB7, 0, 1, 2, 3, 4, 5, 6, 7, 8, 9, 10, 11, 12, 13, 14], [], []⟩ : Io).buf.getD 1 0 = 0 →
        s1.buf = (⟨[0xB7, 0, 1, 2, 3, 4, 5, 6, 7, 8, 9, 10, 11, 12, 13, 14], [], []⟩ : Io).buf ∧
        s1.out = (afterHead false
            ⟨[0xB7, 0, 1, 2, 3, 4, 5, 6, 7, 8, 9, 10, 11, 12, 13, 14], [], []⟩).out
          ++ ascii "Data Format Field: Reserved for allocation by tag manufacturer\n" ∧
        s1.reads = (afterHead false
            ⟨[0xB7, 0, 1, 2, 3, 4, 5, 6, 7, 8, 9, 10, 11, 12, 13, 14], [], []⟩).reads ++ [1]) :=
  ⟨by decide, C8_fails_iff_reserved false 17
    ⟨[0xB7, 0, 1, 2, 3, 4, 5, 6, 7, 8, 9, 10, 11, 12, 13, 14], [], []⟩ 128
    (by decide) (by decide) (by decide) (by decide) (by decide)⟩

theorem takeWhile_all (l : List Nat) (x : Nat) (hl : ∀ b ∈ l, b ≠ 0) (hx : x ≠ 0) :
    (l ++ [x]).takeWhile (fun b => decide (b ≠ 0)) = l ++ [x] := by
  rw [List.takeWhile_eq_self_iff]
  intro b hb
  rcases List.mem_append.mp hb with h | h
  · simpa using hl b h
  · have : b = x := by simpa using h
    subst this; simpa using hx

theorem getD_append_at (p rest : List Nat) (x : Nat) : (p ++ x :: rest).getD p.length 0 = x := by
  induction p with
  | nil => rfl
  | cons a p ih => simpa using ih

/-- C9: for every format code `f` in 1..4 and every payload of at most 12 bytes
without `0xFE` and without `0x00`, stored from offset 2 and followed by `0xFE`, in
a complete record held by a buffer of at least 16 bytes, `decode_barcode`
succeeds and the text it prints after the verbose head is the implied prefix of
`f` followed by exactly the payload bytes, closed by the line break. -/
theorem C9_uri_decoding (verbose : Bool) (fuel m f : Nat) (payload rest out0 reads0 : List Nat)
    (L : Nat) (hL : L % 128 = 0) (hf : f = 1 ∨ f = 2 ∨ f = 3 ∨ f = 4)
    (hp : payload.length ≤ 12) (hFE : ∀ x ∈ payload, x ≠ 0xFE) (h0 : ∀ x ∈ payload, x ≠ 0)
    (hlen : 16 ≤ (m :: f :: (payload ++ 0xFE :: rest)).length) :
    ∃ s1, decode_barcode verbose fuel ⟨m :: f :: (payload ++ 0xFE :: rest), out0, reads0⟩ L
        = .ok (true, s1) ∧
      s1.out = out0
        ++ (if verbose = true then verboseText (m :: f :: (payload ++ 0xFE :: rest)) else [])
        ++ (if f = 1 then ascii "http://www." else if f = 2 then ascii "https://www."
            else if f = 3 then ascii "http://" else ascii "https://")
        ++ payload ++ [0x0A] := by
  have hf1 : (m :: f :: (payload ++ 0xFE :: rest)).getD 1 0 = f := by simp
  have hrun := decode_uri_spec verbose fuel ⟨m :: f :: (payload ++ 0xFE :: rest), out0, reads0⟩ L hL
    hlen (by simp only [hf1]; exact hf)
  have hend : uriEnd (m :: f :: (payload ++ 0xFE :: rest)) 13 2 = 2 + payload.length := by
    apply uriEnd_unique _ _ 13 2 (by omega) (by omega) (by omega) (by omega)
    · left
      rw [show 2 + payload.length = payload.length + 1 + 1 by omega]
      simp only [List.getD_cons_succ]
      exact getD_append_at payload rest 0xFE
    · intro k hk1 hk2
      obtain ⟨j, rfl⟩ : ∃ j, k = j + 1 + 1 := ⟨k - 2, by omega⟩
      have hj : j < payload.length := by omega
      have : (m :: f :: (payload ++ 0xFE :: rest)).getD (j + 1 + 1) 0 = payload[j] := by
        simp [List.getElem?_append_left, hj]
      rw [this]
      exact hFE _ (List.getElem_mem hj)
  have htext : uriText (m :: f :: (payload ++ 0xFE :: rest)) = payload ++ [10] := by
    unfold uriText
    rw [hend]
    simp only [List.drop_succ_cons, List.drop_zero, Nat.add_sub_cancel_left,
      List.take_left' rfl]
    exact takeWhile_all payload 10 h0 (by decide)
  refine ⟨_, hrun, ?_⟩
  simp only [htext, hf1]
  have hpre : uriPrefix f = (if f = 1 then ascii "http://www." else if f = 2 then ascii "https://www."
            else if f = 3 then ascii "http://" else ascii "https://") := by
    unfold uriPrefix
    rcases hf with h | h | h | h <;> subst h <;> simp
  rw [hpre]
  cases verbose <;> simp [afterHead, List.append_assoc]

/-- C9 (witness): format 1 with payload `example.com` followed by `0xFE` prints
the line `http://www.example.com`. -/
theorem C9_witness :
    (128 % 128 = 0 ∧ ((1 : Nat) = 1 ∨ (1 : Nat) = 2 ∨ (1 : Nat) = 3 ∨ (1 : Nat) = 4) ∧
      (ascii "example.com").length ≤ 12 ∧ (∀ x ∈ ascii "example.com", x ≠ 0xFE) ∧
      (∀ x ∈ ascii "example.com", x ≠ 0) ∧
      16 ≤ (0xB7 :: 1 :: (ascii "example.com" ++ 0xFE :: [0x11, 0x22])).length) ∧
    ∃ s1, decode_barcode false 0
        ⟨0xB7 :: 1 :: (ascii "example.com" ++ 0xFE :: [0x11, 0x22]), [], []⟩ 128 = .ok (true, s1) ∧
      s1.out = ascii "http://www.example.com\n" :=
  ⟨by decide, C9_uri_decoding false 0 0xB7 1 (ascii "example.com") [0x11, 0x22] [] [] 128
    (by decide) (by decide) (by decide) (by decide) (by decide) (by decide)⟩

theorem mem_window (buf : List Nat) (a n b : Nat) (h : b ∈ (buf.drop a).take n) :
    ∃ k, a ≤ k ∧ k < a + n ∧ k < buf.length ∧ buf.getD k 0 = b := by
  obtain ⟨j, hj, hb⟩ := List.mem_iff_getElem.mp h
  have hj1 : j < n := by
    have := hj; rw [List.length_take] at this; omega
  have hj2 : a + j < buf.length := by
    have := hj; rw [List.length_take, List.length_drop] at this; omega
  refine ⟨a + j, by omega, by omega, hj2, ?_⟩
  rw [List.getElem_take, List.getElem_drop] at hb
  simp [hj2, hb]

/-- C10 (refuted as stated): a 16-byte record of format 1 whose bytes at offsets
2..15 are the letters `a`..`n`, none of them `0xFE`.  Only the 12 letters
`a`..`l` of offsets 2..13 are printed, not 13 bytes: the `m` at offset 14 is
replaced by the line break; and offset 15 is loaded. -/
theorem C10_counterexample_twelve_bytes :
    ∃ s1, decode_barcode false 0 ⟨0xB7 :: 1 :: ascii "abcdefghijklmn", [], []⟩ 128
        = .ok (true, s1) ∧
      s1.out = ascii "http://www." ++ ascii "abcdefghijkl" ++ [0x0A] ∧
      s1.out ≠ ascii "http://www." ++ ascii "abcdefghijklm" ∧
      15 ∈ s1.reads :=
  ⟨_, rfl, rfl, by decide, by decide⟩

/-- C10 (amended): for every complete record with format 1..4, held by a buffer
of at least 16 bytes, that has no `0xFE` at offsets 2..14, `decode_barcode`
succeeds; the text after the prefix is the 12 bytes of offsets 2..13 followed by
the line break that replaced offset 14, cut at the first zero byte; no offset
above 15 is loaded; and when none of the bytes at offsets 2..13 is zero, exactly
those 12 bytes and the line break are printed and offset 15 is loaded. -/
theorem C10_unterminated_uri (verbose : Bool) (fuel : Nat) (s : Io) (L : Nat)
    (hL : L % 128 = 0) (hlen : 16 ≤ s.buf.length)
    (hf : s.buf.getD 1 0 = 1 ∨ s.buf.getD 1 0 = 2 ∨ s.buf.getD 1 0 = 3 ∨ s.buf.getD 1 0 = 4)
    (hnoFE : ∀ k, 2 ≤ k → k ≤ 14 → s.buf.getD k 0 ≠ 0xFE) :
    ∃ s1, decode_barcode verbose fuel s L = .ok (true, s1) ∧
      s1.out = (afterHead verbose s).out ++ uriPrefix (s.buf.getD 1 0)
        ++ ((s.buf.drop 2).take 12 ++ [0x0A]).takeWhile (fun b => decide (b ≠ 0)) ∧
      (∀ i ∈ s1.reads, i ∈ s.reads ∨ i ≤ 15) ∧
      ((∀ k, 2 ≤ k → k ≤ 13 → s.buf.getD k 0 ≠ 0) →
        s1.out = (afterHead verbose s).out ++ uriPrefix (s.buf.getD 1 0)
          ++ (s.buf.drop 2).take 12 ++ [0x0A] ∧
        ((s.buf.drop 2).take 12).length = 12 ∧ 15 ∈ s1.reads) := by
  have hrun := decode_uri_spec verbose fuel s L hL hlen hf
  have hend : uriEnd s.buf 13 2 = 14 :=
    uriEnd_unique s.buf 14 13 2 (by omega) (by omega) (by omega) (by omega) (Or.inr rfl)
      (fun k h1 h2 => hnoFE k h1 (by omega))
  have htext : uriText s.buf
      = ((s.buf.drop 2).take 12 ++ [0x0A]).takeWhile (fun b => decide (b ≠ 0)) := by
    unfold uriText; rw [hend]
  have hwin : ((s.buf.drop 2).take 12).length = 12 := by
    rw [List.length_take, List.length_drop]; omega
  have htl : (uriText s.buf).length ≤ 13 := by
    rw [htext]
    refine le_trans (List.takeWhile_sublist _).length_le ?_
    rw [List.length_append, hwin]; simp
  have hhead : ∀ i ∈ (afterHead verbose s).reads, i ∈ s.reads ∨ i ≤ 15 := by
    intro i hi
    cases verbose
    · left; simpa [afterHead] using hi
    · simp only [afterHead, if_true, List.mem_append] at hi
      rcases hi with h | h
      · exact Or.inl h
      · right
        simp only [List.mem_cons, List.mem_singleton, List.not_mem_nil, or_false] at h
        omega
  refine ⟨_, hrun, ?_, ?_, ?_⟩
  · simp only [htext]
  · intro i hi
    simp only [hend, List.mem_append, List.mem_range'_1, List.mem_cons, List.mem_singleton,
      List.not_mem_nil, or_false] at hi
    rcases hi with ((h | h) | h) | h
    · exact hhead i h
    · right; omega
    · right; omega
    · right; omega
  · intro hnz
    have hall : uriText s.buf = (s.buf.drop 2).take 12 ++ [10] := by
      rw [htext]
      apply takeWhile_all _ _ _ (by decide)
      intro b hb
      obtain ⟨k, hk1, hk2, _, hkb⟩ := mem_window s.buf 2 12 b hb
      rw [← hkb]
      exact hnz k hk1 (by omega)
    refine ⟨?_, hwin, ?_⟩
    · simp only [hall, List.append_assoc]
    · simp only [hall, List.length_append, hwin, List.mem_append, List.mem_range'_1]
      right; simp

/-- C10 (witness): the 16-byte record of format 1 with the letters `a`..`n` at
offsets 2..15. -/
theorem C10_witness :
    (128 % 128 = 0 ∧
      16 ≤ (⟨0xB7 :: 1 :: ascii "abcdefghijklmn", [], []⟩ : Io).buf.length ∧
      ((⟨0xB7 :: 1 :: ascii "abcdefghijklmn", [], []⟩ : Io).buf.getD 1 0 = 1 ∨
        (⟨0xB7 :: 1 :: ascii "abcdefghijklmn", [], []⟩ : Io).buf.getD 1 0 = 2 ∨
        (⟨0xB7 :: 1 :: ascii "abcdefghijklmn", [], []⟩ : Io).buf.getD 1 0 = 3 ∨
        (⟨0xB7 :: 1 :: ascii "abcdefghijklmn", [], []⟩ : Io).buf.getD 1 0 = 4) ∧
      (∀ k, 2 ≤ k → k ≤ 14 →
        (⟨0xB7 :: 1 :: ascii "abcdefghijklmn", [], []⟩ : Io).buf.getD k 0 ≠ 0xFE)) ∧
    ∃ s1, decode_barcode true 0 ⟨0xB7 :: 1 :: ascii "abcdefghijklmn", [], []⟩ 128
        = .ok (true, s1) ∧
      s1.out = (afterHead true ⟨0xB7 :: 1 :: ascii "abcdefghijklmn", [], []⟩).out
        ++ uriPrefix ((⟨0xB7 :: 1 :: ascii "abcdefghijklmn", [], []⟩ : Io).buf.getD 1 0)
        ++ (((⟨0xB7 :: 1 :: ascii "abcdefghijklmn", [], []⟩ : Io).buf.drop 2).take 12
            ++ [0x0A]).takeWhile (fun b => decide (b ≠ 0)) ∧
      (∀ i ∈ s1.reads, i ∈ ([] : List Nat) ∨ i ≤ 15) ∧
      ((∀ k, 2 ≤ k → k ≤ 13 →
          (⟨0xB7 :: 1 :: ascii "abcdefghijklmn", [], []⟩ : Io).buf.getD k 0 ≠ 0) →
        s1.out = (afterHead true ⟨0xB7 :: 1 :: ascii "abcdefghijklmn", [], []⟩).out
          ++ uriPrefix ((⟨0xB7 :: 1 :: ascii "abcdefghijklmn", [], []⟩ : Io).buf.getD 1 0)
          ++ ((⟨0xB7 :: 1 :: ascii "abcdefghijklmn", [], []⟩ : Io).buf.drop 2).take 12 ++ [0x0A] ∧
        (((⟨0xB7 :: 1 :: ascii "abcdefghijklmn", [], []⟩ : Io).buf.drop 2).take 12).length = 12 ∧
        15 ∈ s1.reads) :=
  ⟨⟨by decide, by decide, by decide, fun k h1 h2 => by
      have : k = 2 ∨ k = 3 ∨ k = 4 ∨ k = 5 ∨ k = 6 ∨ k = 7 ∨ k = 8 ∨ k = 9 ∨ k = 10 ∨ k = 11 ∨
          k = 12 ∨ k = 13 ∨ k = 14 := by omega
      rcases this with h | h | h | h | h | h | h | h | h | h | h | h | h <;> subst h <;> decide⟩,
    C10_unterminated_uri true 0 ⟨0xB7 :: 1 :: ascii "abcdefghijklmn", [], []⟩ 128
      (by decide) (by decide) (by decide) (fun k h1 h2 => by
        have : k = 2 ∨ k = 3 ∨ k = 4 ∨ k = 5 ∨ k = 6 ∨ k = 7 ∨ k = 8 ∨ k = 9 ∨ k = 10 ∨ k = 11 ∨
            k = 12 ∨ k = 13 ∨ k = 14 := by omega
        rcases this with h | h | h | h | h | h | h | h | h | h | h | h | h <;> subst h <;> decide)⟩


/-! ## Cursor and bounds lemmas on `bits2barcode` -/

theorem putShifted_ok (v : Nat) (buf : List Nat) (off : Nat) (h : off < 8 * buf.length) :
    ∃ buf1, putShifted v (buf, off) = .ok (buf1, off + 1) ∧ buf1.length = buf.length := by
  have hidx : off / 8 < buf.length := by omega
  exact ⟨buf.set (off / 8) ((buf[off / 8] ||| v <<< (7 - off % 8)) % 256),
    by simp [putShifted, orAt, rd, wr, hidx], by simp⟩

theorem bitLoop_ok (data : List Nat) (szPos : Nat) (hd : szPos < data.length) :
    ∀ n i buf off, off + n ≤ 8 * buf.length →
      ∃ buf1, forLoop (bitBody data szPos) n i (buf, off) = .ok (buf1, off + n) ∧
        buf1.length = buf.length := by
  intro n
  induction n with
  | zero => intro i buf off _; exact ⟨buf, rfl, rfl⟩
  | succ n ih =>
    intro i buf off hfit
    obtain ⟨buf1, hrun, hlen⟩ := putShifted_ok ((data[szPos] >>> i) &&& 1) buf off (by omega)
    obtain ⟨buf2, hrun2, hlen2⟩ := ih (i + 1) buf1 (off + 1) (by rw [hlen]; omega)
    refine ⟨buf2, ?_, by rw [hlen2, hlen]⟩
    rw [forLoop_succ]
    simp only [bitBody, rd, List.getElem?_eq_getElem hd, hrun]
    rw [hrun2, show off + 1 + n = off + (n + 1) by omega]

theorem groupLoop_ok (data par : List Nat) :
    ∀ n g buf, g + n ≤ data.length → g + n ≤ par.length → 1 + 9 * (g + n) ≤ 8 * buf.length →
      ∃ buf1, forLoop (groupBody data par) n g (buf, 1 + 9 * g) = .ok (buf1, 1 + 9 * (g + n)) ∧
        buf1.length = buf.length := by
  intro n
  induction n with
  | zero => intro g buf _ _ _; exact ⟨buf, rfl, rfl⟩
  | succ n ih =>
    intro g buf hdl hpl hfit
    have hgd : g < data.length := by omega
    have hgp : g < par.length := by omega
    obtain ⟨buf1, hrun1, hlen1⟩ := bitLoop_ok data g hgd 8 0 buf (1 + 9 * g) (by omega)
    obtain ⟨buf2, hrun2, hlen2⟩ := putShifted_ok par[g] buf1 (1 + 9 * g + 8) (by rw [hlen1]; omega)
    rw [show 1 + 9 * g + 8 + 1 = 1 + 9 * (g + 1) by omega] at hrun2
    obtain ⟨buf3, hrun3, hlen3⟩ := ih (g + 1) buf2 (by omega) (by omega) (by rw [hlen2, hlen1]; omega)
    refine ⟨buf3, ?_, by rw [hlen3, hlen2, hlen1]⟩
    rw [forLoop_succ]
    simp only [groupBody, hrun1, rd, List.getElem?_eq_getElem hgp, hrun2]
    rw [hrun3, show g + 1 + n = g + (n + 1) by omega]

/-- Part of `bits2barcode` after the zero-initialisation loop. -/
theorem reframe_ok (data : List Nat) (szBits : Nat) (par buf0 : List Nat)
    (hdata : szBits ≤ 8 * data.length) (hpar : szBits / 8 ≤ par.length)
    (hfit : 1 + 9 * (szBits / 8) + szBits % 8 ≤ 8 * buf0.length) :
    ∃ b1 b2 b3, putShifted 1 (buf0, 0) = .ok (b1, 1) ∧
      forLoop (groupBody data par) (szBits / 8) 0 (b1, 1) = .ok (b2, 1 + 9 * (szBits / 8)) ∧
      forLoop (bitBody data (szBits / 8)) (szBits % 8) 0 (b2, 1 + 9 * (szBits / 8))
        = .ok (b3, 1 + 9 * (szBits / 8) + szBits % 8) ∧
      b3.length = buf0.length := by
  obtain ⟨b1, hrun1, hlen1⟩ := putShifted_ok 1 buf0 0 (by omega)
  obtain ⟨b2, hrun2, hlen2⟩ := groupLoop_ok data par (szBits / 8) 0 b1 (by omega) (by omega)
    (by rw [hlen1]; omega)
  simp only [Nat.mul_zero, Nat.add_zero, Nat.zero_add] at hrun2 hrun1
  by_cases hr : szBits % 8 = 0
  · refine ⟨b1, b2, b2, hrun1, hrun2, ?_, by rw [hlen2, hlen1]⟩
    rw [hr]; rfl
  · obtain ⟨b3, hrun3, hlen3⟩ := bitLoop_ok data (szBits / 8) (by omega) (szBits % 8) 0 b2
      (1 + 9 * (szBits / 8)) (by rw [hlen2, hlen1]; omega)
    exact ⟨b1, b2, b3, hrun1, hrun2, hrun3, by rw [hlen3, hlen2, hlen1]⟩

theorem zeroFill_short (sz : Nat) (hsz : sz ≤ 255) :
    ∀ fuel i buf, i + fuel ≤ sz → sz ≤ buf.length →
      zeroFill sz fuel i buf = .error .outOfFuel := by
  intro fuel
  induction fuel with
  | zero => intro i buf _ _; rfl
  | succ f ih =>
    intro i buf hi hlen
    have hlt : i < sz := by omega
    have hlt2 : i < buf.length := by omega
    have hmod : (i + 1) % 256 = i + 1 := Nat.mod_eq_of_lt (by omega)
    simp only [zeroFill, hlt, if_true, wr, hlt2, hmod]
    exact ih (i + 1) _ (by omega) (by simpa using hlen)

theorem zeroFill_in_bounds (sz : Nat) :
    ∀ fuel i buf, sz ≤ buf.length →
      zeroFill sz fuel i buf = .error .outOfFuel ∨
        ∃ b, zeroFill sz fuel i buf = .ok b ∧ b.length = buf.length := by
  intro fuel
  induction fuel with
  | zero => intro i buf _; exact Or.inl rfl
  | succ f ih =>
    intro i buf hlen
    by_cases hlt : i < sz
    · have hlt2 : i < buf.length := by omega
      simp only [zeroFill, hlt, if_true, wr, hlt2]
      rcases ih ((i + 1) % 256) (buf.set i (0 % 256)) (by simpa using hlen) with h | ⟨b, h, hb⟩
      · exact Or.inl h
      · exact Or.inr ⟨b, h, by simpa using hb⟩
    · exact Or.inr ⟨buf, by simp [zeroFill, hlt], rfl⟩

/-- Run of `bits2barcode` on a buffer of exactly `szBarcode` bytes that holds the
result, whatever the parity bytes: it either returns or runs out of steps. -/
theorem bits2barcode_in_bounds (fuel : Nat) (data : List Nat) (szBits : Nat) (par buf : List Nat)
    (sz : Nat) (hlen : buf.length = sz) (hdata : szBits ≤ 8 * data.length)
    (hpar : szBits / 8 ≤ par.length) (hfit : 1 + 9 * (szBits / 8) + szBits % 8 ≤ 8 * sz) :
    (∃ out, bits2barcodeBody fuel data szBits par buf sz
        = .ok (out, 1 + 9 * (szBits / 8) + szBits % 8) ∧ out.length = sz) ∨
      bits2barcodeBody fuel data szBits par buf sz = .error .outOfFuel := by
  rcases zeroFill_in_bounds sz fuel 0 buf (by omega) with hz | ⟨b0, hz, hb0⟩
  · right
    simp only [bits2barcodeBody, hz]
  · left
    obtain ⟨b1, b2, b3, h1, h2, h3, hl⟩ := reframe_ok data szBits par b0 hdata hpar
      (by rw [hb0, hlen]; exact hfit)
    exact ⟨b3, by simp only [bits2barcodeBody, hz, h1, h2, h3], by rw [hl, hb0, hlen]⟩

/-- C11 (refuted as stated): one byte `0xFF` with parity 1 and a declared capacity
of 1 byte.  On a buffer of exactly 1 byte the run stops at a store outside the
buffer; on a buffer of 2 bytes, still declared as 1, the byte at index 1 is
written (`0xC0`). -/
theorem C11_counterexample_write_past_capacity :
    bits2barcode 2 [0xFF] 8 [1] [0] 1 = .error .outOfBounds ∧
    bits2barcode 2 [0xFF] 8 [1] [0, 0] 1 = .ok ([0xFF, 0xC0], 10) :=
  ⟨rfl, rfl⟩

/-- C11 (amended): for every bit count `szBits` and declared capacity `szBarcode`
with `1 + 9 * (szBits / 8) + szBits % 8 ≤ 8 * szBarcode`, and every content of the
data and parity arrays that hold the `szBits` bits, a run of `bits2barcode` on a
buffer of exactly `szBarcode` bytes never stops at an access outside the buffer:
it returns (the cursor `off`, converted to `int`) with the buffer length
unchanged, or it runs out of steps. -/
theorem C11_writes_within_capacity (fuel : Nat) (data : List Nat) (szBits : Nat)
    (par buf : List Nat) (sz : Nat) (hlen : buf.length = sz) (hdata : szBits ≤ 8 * data.length)
    (hpar : szBits / 8 ≤ par.length) (hfit : 1 + 9 * (szBits / 8) + szBits % 8 ≤ 8 * sz) :
    bits2barcode fuel data szBits par buf sz ≠ .error .outOfBounds ∧
    ((∃ out, bits2barcode fuel data szBits par buf sz
        = .ok (out, toInt (1 + 9 * (szBits / 8) + szBits % 8)) ∧ out.length = sz) ∨
      bits2barcode fuel data szBits par buf sz = .error .outOfFuel) := by
  have h : (∃ out, bits2barcode fuel data szBits par buf sz
        = .ok (out, toInt (1 + 9 * (szBits / 8) + szBits % 8)) ∧ out.length = sz) ∨
      bits2barcode fuel data szBits par buf sz = .error .outOfFuel := by
    rcases bits2barcode_in_bounds fuel data szBits par buf sz hlen hdata hpar hfit with
      ⟨out, h, hl⟩ | h
    · exact Or.inl ⟨out, bits2barcode_of_body _ _ _ _ _ _ _ _ h, hl⟩
    · exact Or.inr (bits2barcode_of_body_error _ _ _ _ _ _ _ h)
  refine ⟨?_, h⟩
  rcases h with ⟨out, h, _⟩ | h <;> rw [h] <;> intro hc <;> cases hc

/-- C11 (witness): 19 bits with parity bytes `0xFF` and `0x80` into a 3-byte
buffer. -/
theorem C11_witness :
    ([7, 7, 7].length = 3 ∧ 19 ≤ 8 * [0xA5, 0x3C, 0x05].length ∧ 19 / 8 ≤ [0xFF, 0x80].length ∧
      1 + 9 * (19 / 8) + 19 % 8 ≤ 8 * 3) ∧
    (bits2barcode 4 [0xA5, 0x3C, 0x05] 19 [0xFF, 0x80] [7, 7, 7] 3 ≠ .error .outOfBounds ∧
    ((∃ out, bits2barcode 4 [0xA5, 0x3C, 0x05] 19 [0xFF, 0x80] [7, 7, 7] 3
        = .ok (out, toInt (1 + 9 * (19 / 8) + 19 % 8)) ∧ out.length = 3) ∨
      bits2barcode 4 [0xA5, 0x3C, 0x05] 19 [0xFF, 0x80] [7, 7, 7] 3 = .error .outOfFuel)) :=
  ⟨by decide, C11_writes_within_capacity 4 [0xA5, 0x3C, 0x05] 19 [0xFF, 0x80] [7, 7, 7] 3
    (by decide) (by decide) (by decide) (by decide)⟩

/-- C12: for every bit count `n ≤ 264` and the 64-byte output buffer,
`bits2barcode` returns an effective length of at most `1 + 9 * ceil(n / 8)`, which
is at most 298 and below 512; the run never leaves the 64 bytes, and every bit
position below the returned length lies in a byte of index below 64. -/
theorem C12_reference_sizing (fuel n : Nat) (data par buf : List Nat) (hn : n ≤ 264)
    (hdata : n ≤ 8 * data.length) (hpar : n / 8 ≤ par.length) (hlen : buf.length = 64)
    (hfuel : 64 < fuel) :
    ∃ (out : List Nat) (off : Nat), bits2barcode fuel data n par buf 64 = .ok (out, (off : Int)) ∧
      out.length = 64 ∧
      off ≤ 1 + 9 * ((n + 7) / 8) ∧ 1 + 9 * ((n + 7) / 8) ≤ 298 ∧ 298 < 8 * 64 ∧
      ∀ p, p < off → p / 8 < 64 := by
  have hz := zeroFill_spec 64 (by omega) 64 fuel 0 buf (by omega) hlen hfuel (fun j hj => by omega)
  obtain ⟨b1, b2, b3, h1, h2, h3, hl⟩ := reframe_ok data n par (List.replicate 64 0) hdata hpar
    (by rw [List.length_replicate]; omega)
  refine ⟨b3, 1 + 9 * (n / 8) + n % 8,
    bits2barcode_of_body_small _ _ _ _ _ _ _ _
      (by simp only [bits2barcodeBody, hz, h1, h2, h3]) (by omega),
    by rw [hl, List.length_replicate], by omega, by omega, by omega, fun p hp => by omega⟩

/-- C12 (witness): a full capture of 264 bits. -/
theorem C12_witness :
    (264 ≤ 264 ∧ 264 ≤ 8 * (List.replicate 33 0xFF).length ∧
      264 / 8 ≤ (List.replicate 33 1).length ∧ (List.replicate 64 0xEE).length = 64 ∧ 64 < 65) ∧
    ∃ (out : List Nat) (off : Nat), bits2barcode 65 (List.replicate 33 0xFF) 264 (List.replicate 33 1)
        (List.replicate 64 0xEE) 64 = .ok (out, (off : Int)) ∧
      out.length = 64 ∧
      off ≤ 1 + 9 * ((264 + 7) / 8) ∧ 1 + 9 * ((264 + 7) / 8) ≤ 298 ∧ 298 < 8 * 64 ∧
      ∀ p, p < off → p / 8 < 64 :=
  ⟨by decide, C12_reference_sizing 65 264 (List.replicate 33 0xFF) (List.replicate 33 1)
    (List.replicate 64 0xEE) (by decide) (by decide) (by decide) (by decide) (by decide)⟩

/-- C13: for every input with parity bytes 0 or 1 and a declared capacity of at
most 255 bytes that holds the result, `bits2barcode` produces the same buffer
and length from any two prior contents of the output buffer, and every output
bit from the returned length up to the full capacity is 0. -/
theorem C13_no_leak (fuel szBits : Nat) (data par buf buf2 : List Nat) (sz : Nat)
    (hdata : szBits ≤ 8 * data.length) (hpar : szBits / 8 ≤ par.length)
    (hp01 : ∀ x ∈ par, x ≤ 1) (hlen : buf.length = sz) (hlen2 : buf2.length = sz)
    (hsz : sz ≤ 255) (hfit : 1 + 9 * (szBits / 8) + szBits % 8 ≤ 8 * sz) (hfuel : sz < fuel) :
    ∃ (out : List Nat) (off : Nat), bits2barcode fuel data szBits par buf sz = .ok (out, (off : Int)) ∧
      bits2barcode fuel data szBits par buf2 sz = .ok (out, (off : Int)) ∧ out.length = sz ∧
      ∀ p, off ≤ p → p < 8 * sz → outbit out p = false := by
  obtain ⟨out, hrun, hol, hbits⟩ := bits2barcode_spec fuel data szBits par buf sz hsz hlen hfuel
    hdata hpar (parity_bits_getD par hp01 _ hpar) hfit
  have hz := zeroFill_spec sz hsz sz fuel 0 buf (by omega) hlen hfuel (fun j hj => by omega)
  have hz2 := zeroFill_spec sz hsz sz fuel 0 buf2 (by omega) hlen2 hfuel (fun j hj => by omega)
  have hsame : bits2barcodeBody fuel data szBits par buf2 sz
      = bits2barcodeBody fuel data szBits par buf sz := by
    simp only [bits2barcodeBody, hz, hz2]
  refine ⟨out, _, bits2barcode_of_body_small _ _ _ _ _ _ _ _ hrun (by omega),
    bits2barcode_of_body_small _ _ _ _ _ _ _ _ (by rw [hsame, hrun]) (by omega), hol,
    fun p hp _ => ?_⟩
  rw [hbits]
  have : ¬ p < 1 + 9 * (szBits / 8) + szBits % 8 := by omega
  simp [this]

/-- C13 (witness): the same 19 bits into a buffer of `0xFF` bytes and into a
buffer of other bytes. -/
theorem C13_witness :
    (19 ≤ 8 * [0xA5, 0x3C, 0x05].length ∧ 19 / 8 ≤ [1, 0].length ∧ (∀ x ∈ [1, 0], x ≤ 1) ∧
      [0xFF, 0xFF, 0xFF, 0xFF].length = 4 ∧ [1, 2, 3, 4].length = 4 ∧ 4 ≤ 255 ∧
      1 + 9 * (19 / 8) + 19 % 8 ≤ 8 * 4 ∧ 4 < 5) ∧
    ∃ (out : List Nat) (off : Nat), bits2barcode 5 [0xA5, 0x3C, 0x05] 19 [1, 0] [0xFF, 0xFF, 0xFF, 0xFF] 4
        = .ok (out, (off : Int)) ∧
      bits2barcode 5 [0xA5, 0x3C, 0x05] 19 [1, 0] [1, 2, 3, 4] 4 = .ok (out, (off : Int)) ∧
      out.length = 4 ∧ ∀ p, off ≤ p → p < 8 * 4 → outbit out p = false :=
  ⟨by decide, C13_no_leak 5 19 [0xA5, 0x3C, 0x05] [1, 0] [0xFF, 0xFF, 0xFF, 0xFF] [1, 2, 3, 4] 4
    (by decide) (by decide) (by decide) (by decide) (by decide) (by decide) (by decide)
    (by decide)⟩

theorem complete_lengths (n : Nat) (hn : n ≤ 455) :
    (1 + 9 * (n / 8) + n % 8) % 128 = 0 ↔ n = 113 ∨ n = 227 ∨ n = 341 ∨ n = 455 := by
  constructor
  · intro h
    obtain ⟨k, hk⟩ : ∃ k, 1 + 9 * (n / 8) + n % 8 = 128 * k :=
      ⟨_, (Nat.div_add_mod _ 128).symm.trans (by rw [h, Nat.add_zero])⟩
    have hk4 : k ≤ 4 := by omega
    interval_cases k <;> omega
  · intro h
    rcases h with h | h | h | h <;> subst h <;> rfl

/-- C17: for the 64-byte buffer the reframed result fits exactly when `n ≤ 455`,
and for every such bit count `bits2barcode` returns `1 + 9 * (n / 8) + n % 8`,
which is a multiple of 128 exactly for `n` = 113, 227, 341, 455; when `n` is a
multiple of 8 the length is no multiple of 128 and `validate_crc` returns false
on the reframed buffer. -/
theorem C17_complete_captures (fuel n : Nat) (data par buf : List Nat)
    (hdata : n ≤ 8 * data.length) (hpar : n / 8 ≤ par.length) (hlen : buf.length = 64)
    (hfuel : 64 < fuel) :
    (1 + 9 * (n / 8) + n % 8 ≤ 8 * 64 ↔ n ≤ 455) ∧
    (n ≤ 455 →
      ∃ out, bits2barcode fuel data n par buf 64
          = .ok (out, ((1 + 9 * (n / 8) + n % 8 : Nat) : Int)) ∧
        ((1 + 9 * (n / 8) + n % 8) % 128 = 0 ↔ n = 113 ∨ n = 227 ∨ n = 341 ∨ n = 455) ∧
        (n % 8 = 0 →
          (1 + 9 * (n / 8) + n % 8) % 128 ≠ 0 ∧
          ∀ (verbose : Bool) (o r : List Nat),
            (validate_crc verbose ⟨out, o, r⟩ (1 + 9 * (n / 8) + n % 8)).map Prod.fst
              = .ok false)) := by
  refine ⟨by omega, fun hn => ?_⟩
  have hz := zeroFill_spec 64 (by omega) 64 fuel 0 buf (by omega) hlen hfuel (fun j hj => by omega)
  obtain ⟨b1, b2, b3, h1, h2, h3, _⟩ := reframe_ok data n par (List.replicate 64 0) hdata hpar
    (by rw [List.length_replicate]; omega)
  refine ⟨b3, bits2barcode_of_body_small _ _ _ _ _ _ _ _
    (by simp only [bits2barcodeBody, hz, h1, h2, h3]) (by omega), complete_lengths n hn,
    fun h8 => ?_⟩
  have hne : (1 + 9 * (n / 8) + n % 8) % 128 ≠ 0 := by
    intro h0
    have := (complete_lengths n hn).mp h0
    omega
  refine ⟨hne, fun verbose o r => ?_⟩
  simp [validate_crc, hne, Except.map]

/-- C17 (witness): 113 bits give the complete length 128. -/
theorem C17_witness :
    (113 ≤ 8 * (List.replicate 15 0x5A).length ∧ 113 / 8 ≤ (List.replicate 14 1).length ∧
      (List.replicate 64 0).length = 64 ∧ 64 < 65) ∧
    ((1 + 9 * (113 / 8) + 113 % 8 ≤ 8 * 64 ↔ 113 ≤ 455) ∧
    (113 ≤ 455 →
      ∃ out, bits2barcode 65 (List.replicate 15 0x5A) 113 (List.replicate 14 1)
          (List.replicate 64 0) 64 = .ok (out, ((1 + 9 * (113 / 8) + 113 % 8 : Nat) : Int)) ∧
        ((1 + 9 * (113 / 8) + 113 % 8) % 128 = 0 ↔
          113 = 113 ∨ 113 = 227 ∨ 113 = 341 ∨ 113 = 455) ∧
        (113 % 8 = 0 →
          (1 + 9 * (113 / 8) + 113 % 8) % 128 ≠ 0 ∧
          ∀ (verbose : Bool) (o r : List Nat),
            (validate_crc verbose ⟨out, o, r⟩ (1 + 9 * (113 / 8) + 113 % 8)).map Prod.fst
              = .ok false))) :=
  ⟨by decide, C17_complete_captures 65 113 (List.replicate 15 0x5A) (List.replicate 14 1)
    (List.replicate 64 0) (by decide) (by decide) (by decide) (by decide)⟩


/-- C20: the zero-initialisation loop on a buffer of `szBarcode` bytes.  For
`szBarcode ≤ 255` it ends after exactly `szBarcode` iterations (the budget
`szBarcode + 1` counts the last, failing test; the budget `szBarcode` is not
enough) with every byte 0, and each iteration at a counter `i < szBarcode` goes on
with the counter `i + 1`, unwrapped.  For `szBarcode ≥ 256` the iteration at
counter 255 goes on with counter 0, and no budget ends the loop. -/
theorem C20_zero_loop_termination (sz : Nat) (buf : List Nat) (hlen : buf.length = sz) :
    (sz ≤ 255 →
      zeroFill sz (sz + 1) 0 buf = .ok (List.replicate sz 0) ∧
      zeroFill sz sz 0 buf = .error .outOfFuel ∧
      ∀ i f (b : List Nat), i < sz → b.length = sz →
        zeroFill sz (f + 1) i b = zeroFill sz f (i + 1) (b.set i 0)) ∧
    (256 ≤ sz →
      (∀ f (b : List Nat), b.length = sz →
        zeroFill sz (f + 1) 255 b = zeroFill sz f 0 (b.set 255 0)) ∧
      ¬ ∃ fuel b, zeroFill sz fuel 0 buf = .ok b) := by
  constructor
  · intro hsz
    refine ⟨zeroFill_spec sz hsz sz (sz + 1) 0 buf (by omega) hlen (by omega)
      (fun j hj => by omega), zeroFill_short sz hsz sz 0 buf (by omega) (by omega), ?_⟩
    intro i f b hi hb
    have hmod : (i + 1) % 256 = i + 1 := Nat.mod_eq_of_lt (by omega)
    simp only [zeroFill, hi, if_true, wr, hb, hmod, Nat.zero_mod]
  · intro hsz
    refine ⟨?_, ?_⟩
    · intro f b hb
      have h1 : 255 < sz := by omega
      simp only [zeroFill, h1, if_true, wr, hb, Nat.zero_mod]
    · rintro ⟨fuel, b, h⟩
      rw [zeroFill_diverges sz hsz fuel 0 buf (by omega) (by omega)] at h
      cases h

/-- C20 (witness): the reference capacity 64 on a dirty buffer ends after 64
iterations; the capacity 256 never ends. -/
theorem C20_witness :
    ((List.replicate 64 0xEE).length = 64 ∧
      zeroFill 64 (64 + 1) 0 (List.replicate 64 0xEE) = .ok (List.replicate 64 0) ∧
      zeroFill 64 64 0 (List.replicate 64 0xEE) = .error .outOfFuel ∧
      ∀ i f (b : List Nat), i < 64 → b.length = 64 →
        zeroFill 64 (f + 1) i b = zeroFill 64 f (i + 1) (b.set i 0)) ∧
    ((List.replicate 256 0xEE).length = 256 ∧
      (∀ f (b : List Nat), b.length = 256 →
        zeroFill 256 (f + 1) 255 b = zeroFill 256 f 0 (b.set 255 0)) ∧
      ¬ ∃ fuel b, zeroFill 256 fuel 0 (List.replicate 256 0xEE) = .ok b) :=
  ⟨⟨by decide,
      (C20_zero_loop_termination 64 (List.replicate 64 0xEE) (by decide)).1 (by decide)⟩,
    ⟨by rw [List.length_replicate],
      (C20_zero_loop_termination 256 (List.replicate 256 0xEE)
        (by rw [List.length_replicate])).2 (by decide)⟩⟩


/-! ## Further lemmas on `decode_barcode` -/

theorem hexDump_buf (bound : Nat) : ∀ fuel i (s s1 : Io), hexDump bound fuel i s = .ok s1 →
    s1.buf = s.buf := by
  intro fuel
  induction fuel with
  | zero => intro i s s1 h; cases h
  | succ f ih =>
    intro i s s1 h
    by_cases hlt : i < bound
    · rw [hexDump, if_pos hlt] at h
      by_cases hi : i < s.buf.length
      · rw [load_ok s i hi] at h
        simp only at h
        have := ih _ _ _ h
        simpa using this
      · have hnone : s.buf[i]? = none := List.getElem?_eq_none (by omega)
        simp [Io.load, hnone] at h
    · rw [hexDump, if_neg hlt] at h
      injection h with h; subst h; rfl

/-- No run of `decode_barcode` on a record whose format byte is none of 0..5
changes the buffer. -/
theorem decode_unknown_buf (verbose : Bool) (fuel : Nat) (s : Io) (L : Nat) (hL : L % 128 = 0)
    (hlen : 2 ≤ s.buf.length) (hf : 5 < s.buf.getD 1 0) (b : Bool) (s1 : Io)
    (h : decode_barcode verbose fuel s L = .ok (b, s1)) : s1.buf = s.buf := by
  have hne : ¬ (L % 128 ≠ 0) := by omega
  have hf0 : ¬ (s.buf.getD 1 0 = 0) := by omega
  have hf14 : ¬ (s.buf.getD 1 0 = 1 ∨ s.buf.getD 1 0 = 2 ∨ s.buf.getD 1 0 = 3 ∨ s.buf.getD 1 0 = 4) := by
    omega
  have hf5 : ¬ (s.buf.getD 1 0 = 5) := by omega
  unfold decode_barcode at h
  simp only [hne, if_false] at h
  rw [head_spec verbose s hlen] at h
  simp only at h
  rw [load_ok _ 1 (by rw [afterHead_buf]; omega)] at h
  simp only [afterHead_buf, hf0, hf14, hf5, if_false] at h
  rw [load_ok _ 1 (by simp only [afterHead_buf]; omega)] at h
  simp only [afterHead_buf] at h
  cases hd : hexDump (szSub (L / 8) 2) fuel 2
      (({ buf := s.buf, out := (afterHead verbose s).out,
          reads := (afterHead verbose s).reads ++ [1] ++ [1] } : Io).print
        (ascii "Data Format Field: unknown (" ++ fmtHex true (s.buf.getD 1 0) ++ ascii ")\n")
        |>.print (ascii "Data:")) with
  | error e => rw [hd] at h; cases h
  | ok s5 =>
    rw [hd] at h
    simp only at h
    injection h with h
    have hb := hexDump_buf _ _ _ _ _ hd
    have : s1 = s5.print (ascii "\n") := (Prod.mk.inj h).2.symm
    rw [this]
    simpa using hb

theorem hexDigit_lower (d : Nat) (hd : d < 16) :
    (48 ≤ hexDigit false d ∧ hexDigit false d ≤ 57) ∨
      (97 ≤ hexDigit false d ∧ hexDigit false d ≤ 102) := by
  unfold hexDigit
  split
  · left; omega
  · right; simp; omega

theorem hexRender_length : ∀ l : List Nat, (hexRender l).length = 2 * l.length := by
  intro l
  induction l with
  | nil => rfl
  | cons b l ih => simp [hexRender, fmtHex, ih]; omega

theorem hexRender_lower : ∀ l : List Nat, (∀ x ∈ l, x < 256) → ∀ c ∈ hexRender l,
    (48 ≤ c ∧ c ≤ 57) ∨ (97 ≤ c ∧ c ≤ 102) := by
  intro l
  induction l with
  | nil => intro _ c hc; cases hc
  | cons b l ih =>
    intro hl c hc
    simp only [hexRender, fmtHex, List.cons_append, List.nil_append, List.mem_cons] at hc
    have hb : b < 256 := hl b (List.mem_cons_self _ _)
    rcases hc with h | h | h
    · subst h; exact hexDigit_lower _ (by omega)
    · subst h; exact hexDigit_lower _ (by omega)
    · exact ih (fun x hx => hl x (List.mem_cons_of_mem _ hx)) c h

theorem window_lt (buf : List Nat) (a n : Nat) (h : ∀ x ∈ buf, x < 256) :
    ∀ x ∈ (buf.drop a).take n, x < 256 :=
  fun x hx => h x (List.mem_of_mem_drop (List.mem_of_mem_take hx))

theorem getD_set_two (l : List Nat) (t x y k : Nat) (h : t + 1 < l.length) :
    ((l.set t x).set (t + 1) y).getD k 0 =
      if k = t + 1 then y else if k = t then x else l.getD k 0 := by
  simp only [List.getD_eq_getElem?_getD, List.getElem?_set, List.length_set]
  by_cases h1 : k = t + 1
  · subst h1; simp [h]
  · by_cases h2 : k = t
    · subst h2
      have : ¬ (k + 1 = k) := by omega
      simp [this, show k < l.length by omega]
    · have h3 : ¬ (t + 1 = k) := fun h => h1 h.symm
      have h4 : ¬ (t = k) := fun h => h2 h.symm
      simp [h1, h2, h3, h4]

/-! ## Further claims on `decode_barcode` -/

/-- C14: on a complete record of at least 16 bytes with format 1..4 there is an
offset `t`, the first in 2..14 that holds `0xFE` or else 14, such that
`decode_barcode` returns with byte `t` set to `0x0A`, byte `t + 1` set to `0x00` and
every other byte unchanged, `t + 1 ≤ 15` lying inside the record.  With any other
format byte no run changes the buffer, and the run returns whenever the format
is at most 5 or the record has at most 257 bytes. -/
theorem C14_in_place_effect (verbose : Bool) (fuel : Nat) (s : Io) (L : Nat)
    (hL : L % 128 = 0) (h16 : 16 ≤ L / 8) (hlen : L / 8 ≤ s.buf.length) :
    ((s.buf.getD 1 0 = 1 ∨ s.buf.getD 1 0 = 2 ∨ s.buf.getD 1 0 = 3 ∨ s.buf.getD 1 0 = 4) →
      ∃ t, 2 ≤ t ∧ t ≤ 14 ∧ (s.buf.getD t 0 = 0xFE ∨ t = 14) ∧
        (∀ k, 2 ≤ k → k < t → s.buf.getD k 0 ≠ 0xFE) ∧ t + 1 ≤ 15 ∧ t + 1 < L / 8 ∧
        ∃ s1, decode_barcode verbose fuel s L = .ok (true, s1) ∧
          s1.buf = (s.buf.set t 0x0A).set (t + 1) 0 ∧
          s1.buf.getD t 0 = 0x0A ∧ s1.buf.getD (t + 1) 0 = 0 ∧
          ∀ k, k ≠ t → k ≠ t + 1 → s1.buf.getD k 0 = s.buf.getD k 0) ∧
    (¬ (s.buf.getD 1 0 = 1 ∨ s.buf.getD 1 0 = 2 ∨ s.buf.getD 1 0 = 3 ∨ s.buf.getD 1 0 = 4) →
      (∀ b s1, decode_barcode verbose fuel s L = .ok (b, s1) → s1.buf = s.buf) ∧
      ((s.buf.getD 1 0 ≤ 5 ∨ L / 8 ≤ 257) → L / 8 < fuel →
        ∃ b s1, decode_barcode verbose fuel s L = .ok (b, s1) ∧ s1.buf = s.buf)) := by
  constructor
  · intro hf
    obtain ⟨hb1, hb2⟩ := uriEnd_bounds s.buf 13 2 (by omega) (by omega)
    obtain ⟨hs1, hs2⟩ := uriEnd_stop s.buf 13 2 (by omega) (by omega)
    have hrun := decode_uri_spec verbose fuel s L hL (by omega) hf
    have hset := set_two (uriEnd s.buf 13 2) s.buf 10 0 (by omega)
    rw [← hset] at hrun
    refine ⟨uriEnd s.buf 13 2, hb1, hb2, hs1, hs2, by omega, by omega, _, hrun, rfl, ?_, ?_, ?_⟩
    · simp only [getD_set_two s.buf _ 10 0 _ (by omega : uriEnd s.buf 13 2 + 1 < s.buf.length)]
      simp
    · simp only [getD_set_two s.buf _ 10 0 _ (by omega : uriEnd s.buf 13 2 + 1 < s.buf.length)]
      simp
    · intro k hk1 hk2
      simp only [getD_set_two s.buf _ 10 0 _ (by omega : uriEnd s.buf 13 2 + 1 < s.buf.length)]
      simp [hk1, hk2]
  · intro hnf
    by_cases h0 : s.buf.getD 1 0 = 0
    · have hrun := decode_reserved_spec verbose fuel s L hL (by omega) h0
      exact ⟨fun b s1 h => by rw [hrun] at h; injection h with h; rw [← (Prod.mk.inj h).2],
        fun _ _ => ⟨_, _, hrun, rfl⟩⟩
    · by_cases h5 : s.buf.getD 1 0 = 5
      · have hrun := decode_epc_spec verbose fuel s L hL (by omega) h5
        exact ⟨fun b s1 h => by rw [hrun] at h; injection h with h; rw [← (Prod.mk.inj h).2],
          fun _ _ => ⟨_, _, hrun, rfl⟩⟩
      · have h6 : 5 < s.buf.getD 1 0 := by omega
        refine ⟨fun b s1 h => decode_unknown_buf verbose fuel s L hL (by omega) h6 b s1 h,
          fun hsmall hfuel => ?_⟩
        have hmax : L / 8 ≤ 257 := by omega
        exact ⟨_, _, decode_unknown_spec verbose fuel s L hL h16 hmax hlen hfuel h6, rfl⟩

/-- C14 (witness): the record `B7 01 "ab" FE ...` of 16 bytes; `t = 4`. -/
theorem C14_witness :
    (128 % 128 = 0 ∧ 16 ≤ 128 / 8 ∧
      128 / 8 ≤ (⟨[0xB7, 1, 97, 98, 0xFE, 5, 6, 7, 8, 9, 10, 11, 12, 13, 14, 15], [], []⟩ : Io).buf.length) ∧
    ∃ s1, decode_barcode false 0
        ⟨[0xB7, 1, 97, 98, 0xFE, 5, 6, 7, 8, 9, 10, 11, 12, 13, 14, 15], [], []⟩ 128
          = .ok (true, s1) ∧
      s1.buf = [0xB7, 1, 97, 98, 0x0A, 0, 6, 7, 8, 9, 10, 11, 12, 13, 14, 15] := by
  refine ⟨by decide, ?_⟩
  obtain ⟨t, _, _, _, _, _, _, s1, h1, _⟩ := (C14_in_place_effect false 0
    ⟨[0xB7, 1, 97, 98, 0xFE, 5, 6, 7, 8, 9, 10, 11, 12, 13, 14, 15], [], []⟩ 128
    (by decide) (by decide) (by decide)).1 (by decide)
  refine ⟨s1, h1, ?_⟩
  have h2 : decode_barcode false 0
      ⟨[0xB7, 1, 97, 98, 0xFE, 5, 6, 7, 8, 9, 10, 11, 12, 13, 14, 15], [], []⟩ 128
      = .ok (true, ⟨[0xB7, 1, 97, 98, 0x0A, 0, 6, 7, 8, 9, 10, 11, 12, 13, 14, 15],
          ascii "http://www.ab\n", [1, 1, 2, 3, 4, 2, 3, 4, 5]⟩) := rfl
  rw [h2] at h1
  injection h1 with h1
  rw [← (Prod.mk.inj h1).2]

/-- C15: on every complete record of at least 16 bytes with format byte 5,
`decode_barcode` succeeds and prints, after the verbose head and the label
`EPC: `, exactly the 12 bytes of offsets 2..13 as 24 lower-case hexadecimal
digits, two per byte in order with no separator, then the line break; any other
such record with the same bytes at offsets 2..13 gives the same digits. -/
theorem C15_epc_decoding (verbose : Bool) (fuel : Nat) (s : Io) (L : Nat)
    (hL : L % 128 = 0) (h16 : 16 ≤ L / 8) (hlen : L / 8 ≤ s.buf.length)
    (hf : s.buf.getD 1 0 = 5) (hbytes : ∀ x ∈ s.buf, x < 256) :
    ∃ s1, decode_barcode verbose fuel s L = .ok (true, s1) ∧
      s1.out = (afterHead verbose s).out ++ ascii "EPC: "
        ++ hexRender ((s.buf.drop 2).take 12) ++ ascii "\n" ∧
      ((s.buf.drop 2).take 12).length = 12 ∧
      (hexRender ((s.buf.drop 2).take 12)).length = 24 ∧
      (∀ c ∈ hexRender ((s.buf.drop 2).take 12), (48 ≤ c ∧ c ≤ 57) ∨ (97 ≤ c ∧ c ≤ 102)) ∧
      ∀ s2 : Io, 16 ≤ s2.buf.length → s2.buf.getD 1 0 = 5 →
        (s2.buf.drop 2).take 12 = (s.buf.drop 2).take 12 →
        ∃ s3, decode_barcode verbose fuel s2 L = .ok (true, s3) ∧
          s3.out = (afterHead verbose s2).out ++ ascii "EPC: "
            ++ hexRender ((s.buf.drop 2).take 12) ++ ascii "\n" := by
  have hwin : ((s.buf.drop 2).take 12).length = 12 := by
    rw [List.length_take, List.length_drop]; omega
  refine ⟨_, decode_epc_spec verbose fuel s L hL (by omega) hf, rfl, hwin, ?_, ?_, ?_⟩
  · rw [hexRender_length, hwin]
  · exact hexRender_lower _ (window_lt s.buf 2 12 hbytes)
  · intro s2 hlen2 hf2 hsame
    exact ⟨_, decode_epc_spec verbose fuel s2 L hL (by omega) hf2, by simp only [hsame]⟩

/-- C15 (witness): the payload `00 11 22 33 44 55 66 77 88 99 AA BB` is printed as
`00112233445566778899aabb`. -/
theorem C15_witness :
    (128 % 128 = 0 ∧ 16 ≤ 128 / 8 ∧
      128 / 8 ≤ (⟨[0xB7, 5, 0x00, 0x11, 0x22, 0x33, 0x44, 0x55, 0x66, 0x77, 0x88, 0x99, 0xAA, 0xBB,
        0x12, 0x34], [], []⟩ : Io).buf.length ∧
      (⟨[0xB7, 5, 0x00, 0x11, 0x22, 0x33, 0x44, 0x55, 0x66, 0x77, 0x88, 0x99, 0xAA, 0xBB,
        0x12, 0x34], [], []⟩ : Io).buf.getD 1 0 = 5 ∧
      ∀ x ∈ (⟨[0xB7, 5, 0x00, 0x11, 0x22, 0x33, 0x44, 0x55, 0x66, 0x77, 0x88, 0x99, 0xAA, 0xBB,
        0x12, 0x34], [], []⟩ : Io).buf, x < 256) ∧
    ∃ s1, decode_barcode false 0
        ⟨[0xB7, 5, 0x00, 0x11, 0x22, 0x33, 0x44, 0x55, 0x66, 0x77, 0x88, 0x99, 0xAA, 0xBB,
          0x12, 0x34], [], []⟩ 128 = .ok (true, s1) ∧
      s1.out = ascii "EPC: " ++ ascii "00112233445566778899aabb" ++ ascii "\n" := by
  refine ⟨by decide, ?_⟩
  obtain ⟨s1, h1, h2, _⟩ := C15_epc_decoding false 0
    ⟨[0xB7, 5, 0x00, 0x11, 0x22, 0x33, 0x44, 0x55, 0x66, 0x77, 0x88, 0x99, 0xAA, 0xBB,
      0x12, 0x34], [], []⟩ 128 (by decide) (by decide) (by decide) (by decide) (by decide)
  exact ⟨s1, h1, h2.trans (by decide)⟩

/-- C16: on every complete record of `L / 8` bytes, `16 ≤ L / 8 ≤ 64`, whose format
byte is none of 0..5, `decode_barcode` succeeds and prints, after the verbose
head and the two labels, exactly the `L / 8 - 4` bytes of offsets
`2 .. L / 8 - 3` as lower-case hexadecimal digits, two per byte in order, then
the line break; the two trailing CRC bytes are neither printed nor loaded. -/
theorem C16_unknown_format (verbose : Bool) (fuel : Nat) (s : Io) (L : Nat)
    (hL : L % 128 = 0) (h16 : 16 ≤ L / 8) (h64 : L / 8 ≤ 64) (hlen : L / 8 ≤ s.buf.length)
    (hf : 5 < s.buf.getD 1 0) (hbytes : ∀ x ∈ s.buf, x < 256) (hfuel : L / 8 < fuel) :
    ∃ s1, decode_barcode verbose fuel s L = .ok (true, s1) ∧
      s1.out = (afterHead verbose s).out
        ++ ascii "Data Format Field: unknown (" ++ fmtHex true (s.buf.getD 1 0) ++ ascii ")\n"
        ++ ascii "Data:" ++ hexRender ((s.buf.drop 2).take (L / 8 - 4)) ++ ascii "\n" ∧
      ((s.buf.drop 2).take (L / 8 - 4)).length = L / 8 - 4 ∧
      (hexRender ((s.buf.drop 2).take (L / 8 - 4))).length = 2 * (L / 8 - 4) ∧
      (∀ c ∈ hexRender ((s.buf.drop 2).take (L / 8 - 4)),
        (48 ≤ c ∧ c ≤ 57) ∨ (97 ≤ c ∧ c ≤ 102)) ∧
      s1.reads = (afterHead verbose s).reads ++ [1, 1] ++ List.range' 2 (L / 8 - 4) ∧
      L / 8 - 2 ∉ List.range' 2 (L / 8 - 4) ∧ L / 8 - 1 ∉ List.range' 2 (L / 8 - 4) := by
  have hwin : ((s.buf.drop 2).take (L / 8 - 4)).length = L / 8 - 4 := by
    rw [List.length_take, List.length_drop]; omega
  refine ⟨_, decode_unknown_spec verbose fuel s L hL h16 (by omega) hlen hfuel hf, rfl, hwin,
    ?_, ?_, rfl, ?_, ?_⟩
  · rw [hexRender_length, hwin]
  · exact hexRender_lower _ (window_lt s.buf 2 _ hbytes)
  · simp only [List.mem_range'_1]; omega
  · simp only [List.mem_range'_1]; omega

/-- C16 (witness): a 16-byte record with format byte `0x09`. -/
theorem C16_witness :
    (128 % 128 = 0 ∧ 16 ≤ 128 / 8 ∧ 128 / 8 ≤ 64 ∧
      128 / 8 ≤ (⟨[0xB7, 9, 0x00, 0x11, 0x22, 0x33, 0x44, 0x55, 0x66, 0x77, 0x88, 0x99, 0xAA, 0xBB,
        0x12, 0x34], [], []⟩ : Io).buf.length ∧
      5 < (⟨[0xB7, 9, 0x00, 0x11, 0x22, 0x33, 0x44, 0x55, 0x66, 0x77, 0x88, 0x99, 0xAA, 0xBB,
        0x12, 0x34], [], []⟩ : Io).buf.getD 1 0 ∧
      (∀ x ∈ (⟨[0xB7, 9, 0x00, 0x11, 0x22, 0x33, 0x44, 0x55, 0x66, 0x77, 0x88, 0x99, 0xAA, 0xBB,
        0x12, 0x34], [], []⟩ : Io).buf, x < 256) ∧ 128 / 8 < 17) ∧
    ∃ s1, decode_barcode false 17
        ⟨[0xB7, 9, 0x00, 0x11, 0x22, 0x33, 0x44, 0x55, 0x66, 0x77, 0x88, 0x99, 0xAA, 0xBB,
          0x12, 0x34], [], []⟩ 128 = .ok (true, s1) ∧
      s1.out = ascii "Data Format Field: unknown (09)\n" ++ ascii "Data:"
        ++ ascii "00112233445566778899aabb" ++ ascii "\n" := by
  refine ⟨by decide, ?_⟩
  obtain ⟨s1, h1, h2, _⟩ := C16_unknown_format false 17
    ⟨[0xB7, 9, 0x00, 0x11, 0x22, 0x33, 0x44, 0x55, 0x66, 0x77, 0x88, 0x99, 0xAA, 0xBB,
      0x12, 0x34], [], []⟩ 128 (by decide) (by decide) (by decide) (by decide) (by decide)
    (by decide) (by decide)
  exact ⟨s1, h1, h2.trans (by decide)⟩

theorem takeWhile_eq_take : ∀ (l : List Nat) (j : Nat), j < l.length → l.getD j 1 = 0 →
    (∀ i, i < j → l.getD i 0 ≠ 0) →
    l.takeWhile (fun b => decide (b ≠ 0)) = l.take j := by
  intro l
  induction l with
  | nil => intro j h; cases h
  | cons a l ih =>
    intro j hj hz hbefore
    cases j with
    | zero =>
      have : a = 0 := by simpa using hz
      simp [List.takeWhile_cons, this]
    | succ j =>
      have ha : a ≠ 0 := by simpa using hbefore 0 (by omega)
      have := ih j (by simpa using hj) (by simpa using hz)
        (fun i hi => by simpa using hbefore (i + 1) (by omega))
      rw [List.takeWhile_cons, List.take_succ_cons, this]
      simp [ha]

theorem window_getD (buf : List Nat) (n i : Nat) (x d : Nat) (hi : i < n)
    (hlen : 2 + n ≤ buf.length) :
    ((buf.drop 2).take n ++ [x]).getD i d = buf.getD (i + 2) 0 := by
  have h1 : i < ((buf.drop 2).take n).length := by
    rw [List.length_take, List.length_drop]; omega
  have h2 : i + 2 < buf.length := by omega
  simp only [List.getD_eq_getElem?_getD]
  rw [List.getElem?_append_left h1, List.getElem?_eq_getElem h1, List.getElem?_eq_getElem h2,
    List.getElem_take, List.getElem_drop]
  simp only [Option.getD_some]
  congr 1
  omega

/-- C19: on every complete record of at least 16 bytes with format 1..4, with `t`
the first offset in 2..14 that holds `0xFE`, or 14, `decode_barcode` prints after
the prefix a text that is: the bytes from offset 2 up to but excluding the first
zero byte, when a zero byte lies at an offset `z` in `2..t-1` (no line break is
then printed); otherwise the bytes of offsets `2..t-1` followed by one line
break.  The bytes of offsets `2..t-1` are at most 12. -/
theorem C19_embedded_nul (verbose : Bool) (fuel : Nat) (s : Io) (L : Nat)
    (hL : L % 128 = 0) (h16 : 16 ≤ L / 8) (hlen : L / 8 ≤ s.buf.length)
    (hf : s.buf.getD 1 0 = 1 ∨ s.buf.getD 1 0 = 2 ∨ s.buf.getD 1 0 = 3 ∨ s.buf.getD 1 0 = 4) :
    ∃ t, 2 ≤ t ∧ t ≤ 14 ∧ (s.buf.getD t 0 = 0xFE ∨ t = 14) ∧
      (∀ k, 2 ≤ k → k < t → s.buf.getD k 0 ≠ 0xFE) ∧
      ∃ s1 text, decode_barcode verbose fuel s L = .ok (true, s1) ∧
        s1.out = (afterHead verbose s).out ++ uriPrefix (s.buf.getD 1 0) ++ text ∧
        (∀ z, 2 ≤ z → z < t → s.buf.getD z 0 = 0 →
          (∀ k, 2 ≤ k → k < z → s.buf.getD k 0 ≠ 0) →
          text = (s.buf.drop 2).take (z - 2)) ∧
        ((∀ k, 2 ≤ k → k < t → s.buf.getD k 0 ≠ 0) →
          text = (s.buf.drop 2).take (t - 2) ++ [0x0A]) ∧
        ((s.buf.drop 2).take (t - 2)).length = t - 2 ∧ t - 2 ≤ 12 ∧
        text.length ≤ t - 2 + 1 := by
  obtain ⟨hb1, hb2⟩ := uriEnd_bounds s.buf 13 2 (by omega) (by omega)
  obtain ⟨hs1, hs2⟩ := uriEnd_stop s.buf 13 2 (by omega) (by omega)
  have hrun := decode_uri_spec verbose fuel s L hL (by omega) hf
  have hwin : ((s.buf.drop 2).take (uriEnd s.buf 13 2 - 2)).length = uriEnd s.buf 13 2 - 2 := by
    rw [List.length_take, List.length_drop]; omega
  refine ⟨uriEnd s.buf 13 2, hb1, hb2, hs1, hs2, _, uriText s.buf, hrun, rfl, ?_, ?_, hwin,
    by omega, ?_⟩
  · intro z hz1 hz2 hz0 hbefore
    unfold uriText
    rw [takeWhile_eq_take _ (z - 2) (by rw [List.length_append, hwin]; simp; omega)
      (by rw [window_getD s.buf _ (z - 2) 10 1 (by omega) (by omega),
            show z - 2 + 2 = z by omega]; exact hz0)
      (fun i hi => by
        rw [window_getD s.buf _ i 10 0 (by omega) (by omega)]
        exact hbefore (i + 2) (by omega) (by omega))]
    rw [List.take_append_of_le_length (by rw [hwin]; omega), List.take_take,
      Nat.min_eq_left (by omega)]
  · intro hnz
    unfold uriText
    apply takeWhile_all _ _ _ (by decide)
    intro b hb
    obtain ⟨k, hk1, hk2, _, hkb⟩ := mem_window s.buf 2 _ b hb
    rw [← hkb]
    exact hnz k hk1 (by omega)
  · unfold uriText
    refine le_trans (List.takeWhile_sublist _).length_le ?_
    rw [List.length_append, hwin]; simp

/-- C19 (witness): the record `B7 02 "ab" 00 "cd" FE ...`; only `ab` is printed
after the prefix, and no line break. -/
theorem C19_witness :
    (128 % 128 = 0 ∧ 16 ≤ 128 / 8 ∧
      128 / 8 ≤ (⟨[0xB7, 2, 97, 98, 0, 99, 100, 0xFE, 8, 9, 10, 11, 12, 13, 14, 15], [], []⟩ : Io).buf.length ∧
      ((⟨[0xB7, 2, 97, 98, 0, 99, 100, 0xFE, 8, 9, 10, 11, 12, 13, 14, 15], [], []⟩ : Io).buf.getD 1 0 = 1 ∨
        (⟨[0xB7, 2, 97, 98, 0, 99, 100, 0xFE, 8, 9, 10, 11, 12, 13, 14, 15], [], []⟩ : Io).buf.getD 1 0 = 2 ∨
        (⟨[0xB7, 2, 97, 98, 0, 99, 100, 0xFE, 8, 9, 10, 11, 12, 13, 14, 15], [], []⟩ : Io).buf.getD 1 0 = 3 ∨
        (⟨[0xB7, 2, 97, 98, 0, 99, 100, 0xFE, 8, 9, 10, 11, 12, 13, 14, 15], [], []⟩ : Io).buf.getD 1 0 = 4)) ∧
    ∃ s1, decode_barcode false 0
        ⟨[0xB7, 2, 97, 98, 0, 99, 100, 0xFE, 8, 9, 10, 11, 12, 13, 14, 15], [], []⟩ 128
          = .ok (true, s1) ∧
      s1.out = ascii "https://www." ++ ascii "ab" := by
  refine ⟨by decide, ?_⟩
  obtain ⟨t, _, _, _, _, s1, text, h1, _⟩ := C19_embedded_nul false 0
    ⟨[0xB7, 2, 97, 98, 0, 99, 100, 0xFE, 8, 9, 10, 11, 12, 13, 14, 15], [], []⟩ 128
    (by decide) (by decide) (by decide) (by decide)
  refine ⟨s1, h1, ?_⟩
  have h2 : decode_barcode false 0
      ⟨[0xB7, 2, 97, 98, 0, 99, 100, 0xFE, 8, 9, 10, 11, 12, 13, 14, 15], [], []⟩ 128
      = .ok (true, ⟨[0xB7, 2, 97, 98, 0, 99, 100, 0x0A, 0, 9, 10, 11, 12, 13, 14, 15],
          ascii "https://www." ++ ascii "ab", [1, 1, 2, 3, 4, 5, 6, 7, 2, 3, 4]⟩) := rfl
  rw [h2] at h1
  injection h1 with h1
  rw [← (Prod.mk.inj h1).2]


end NfcBarcode
